import Mathlib

/-!
Verification development for the ddsearch hybrid retrieval engine.

The JavaScript sources are shallowly embedded in Lean:

* strings are modelled as lists of characters (`Str`), with the line
  splitting, trimming and joining functions of the code defined over them;
* numeric scores are modelled as rationals (the code computes with IEEE
  doubles; rationals give the same algebra exactly);
* the SQLite store is modelled as explicit lists of records, with the
  schema's ON DELETE CASCADE behaviour made explicit;
* external collaborators (the FTS5 ranking query, the embedding provider)
  appear as function parameters, and fallible calls return `Except`.
-/

/-- Character-list model of a JavaScript string. -/
abbrev Str := List Char

/-- Backtick character, written by code point to keep sources plain. -/
def backtick : Char := Char.ofNat 96

/-- Whitespace test matching the regex class \s on the ASCII range
(space, tab, newline, carriage return, vertical tab, form feed). -/
def isWsChar (c : Char) : Bool :=
  c = ' ' || c = '\t' || c = '\n' || c = '\r' || c = Char.ofNat 11 || c = Char.ofNat 12

/-- Model of String.prototype.trim: drop whitespace from both ends. -/
def trimStr (l : Str) : Str :=
  ((l.dropWhile isWsChar).reverse.dropWhile isWsChar).reverse

/-- Model of String.prototype.split with a single-character separator. -/
def splitOnChar (sep : Char) : Str → List Str
  | [] => [[]]
  | c :: rest =>
    let r := splitOnChar sep rest
    if c = sep then [] :: r
    else
      match r with
      | hd :: tl => (c :: hd) :: tl
      | [] => [[c]]

/-- Lines of a document, as content.split('\n') produces them. -/
def splitLines (content : Str) : List Str :=
  splitOnChar (Char.ofNat 10) content

/-- Join a list of lines with newline separators, as lines.join('\n'). -/
def joinLines : List Str → Str
  | [] => []
  | [l] => l
  | l :: rest => l ++ Char.ofNat 10 :: joinLines rest

/-- Token estimate from utils.js: Math.ceil(text.length / 4). -/
def estimateTokens (text : Str) : ℕ :=
  (text.length + 3) / 4

/-- Sum of the per-line token estimates accumulated in currentTokens. -/
def sumTokens (ls : List Str) : ℕ :=
  ls.foldl (fun acc l => acc + estimateTokens l) 0

/-- Target chunk size from chunker.js. -/
def targetChunkSize : ℕ := 300

/-- Minimum chunk size from chunker.js. -/
def minChunkSize : ℕ := 100

/-- Heading test for the regex /^#\x7b1,6\x7d\s/: one to six hash marks
followed by a whitespace character. -/
def isHeading (l : Str) : Bool :=
  let hashes := l.takeWhile (fun c => c = '#')
  decide (1 ≤ hashes.length) && decide (hashes.length ≤ 6) &&
    (match l.drop hashes.length with
     | c :: _ => isWsChar c
     | [] => false)

/-- Code-fence test for the regex that matches a line starting with
three backticks. -/
def isCodeFence (l : Str) : Bool :=
  l.take 3 = [backtick, backtick, backtick]

/-- Horizontal-rule test: a line that is three or more repeated dashes,
stars or underscores and nothing else. -/
def isHorizontalRule (l : Str) : Bool :=
  decide (3 ≤ l.length) &&
    (l.all (fun c => c = '-') || l.all (fun c => c = '*') || l.all (fun c => c = '_'))

/-- Blank-line test from chunker.js: line.trim().length === 0. -/
def isBlankLine (l : Str) : Bool :=
  trimStr l = []

/-- Chunk record produced by chunkMarkdown. -/
structure Chunk where
  text : Str
  startLine : ℕ
  endLine : ℕ
  tokenCount : ℕ
deriving DecidableEq, Repr

/-- Mutable state of the chunkMarkdown scan: emitted chunks, the pending
chunk's lines, its accumulated token estimate, and chunkStartLine. -/
structure ChunkerState where
  chunks : List Chunk
  cc : List Str
  tokens : ℕ
  csl : ℕ
deriving DecidableEq, Repr

/-- Model of the flushChunk closure in chunker.js.  An empty pending chunk
is a no-op; a pending chunk whose trimmed text is empty is discarded
without touching chunkStartLine; otherwise the chunk is emitted and
chunkStartLine advances to nextStartLine (or endLine + 1). -/
def flushChunk (st : ChunkerState) (next : Option ℕ) : ChunkerState :=
  if st.cc = [] then st
  else
    let text := trimStr (joinLines st.cc)
    if text = [] then { st with cc := [], tokens := 0 }
    else
      let endLine := st.csl + st.cc.length - 1
      { chunks := st.chunks ++ [⟨text, st.csl, endLine, estimateTokens text⟩],
        cc := [], tokens := 0,
        csl := next.getD (endLine + 1) }

/-- Append one line to the pending chunk and add its token estimate. -/
def pushLine (st : ChunkerState) (l : Str) : ChunkerState :=
  { st with cc := st.cc ++ [l], tokens := st.tokens + estimateTokens l }

/-- One non-fence iteration of the chunkMarkdown loop at line index i:
flush on a heading above the soft floor, push the line, then flush at a
natural boundary (blank line, horizontal rule, or last line) once the
target size is reached. -/
def chunkStep (line : Str) (rest : List Str) (i : ℕ) (st : ChunkerState) : ChunkerState :=
  let st1 := if isHeading line ∧ st.cc ≠ [] ∧ minChunkSize ≤ st.tokens
             then flushChunk st (some (i + 1)) else st
  let st2 := pushLine st1 line
  if targetChunkSize ≤ st2.tokens ∧
     (isBlankLine line ∨ isHorizontalRule line ∨ rest = [])
  then flushChunk st2 (some (i + 2)) else st2

/-- Main scan loop of chunkMarkdown.  The argument i is the absolute
zero-based index of the first line of rest within the document; it feeds
the nextStartLine arguments exactly as the code computes them.  In the
code, an unterminated code fence leaves the loop variable i unchanged, so
the lines already consumed by the fence scan are processed again by the
outer loop; the model reproduces that by recursing on the same rest.  The
fuel argument only forces structural recursion; any fuel at least the
length of rest yields the loop's semantics. -/
def chunkLoop : ℕ → List Str → ℕ → ChunkerState → ChunkerState
  | _, [], _, st => st
  | 0, _ :: _, _, st => st
  | fuel + 1, line :: rest, i, st =>
    if isCodeFence line then
      let st1 := if isHeading line ∧ st.cc ≠ [] ∧ minChunkSize ≤ st.tokens
                 then flushChunk st (some (i + 1)) else st
      let st2 := pushLine st1 line
      let body := rest.takeWhile (fun l => !isCodeFence l)
      let st3 := body.foldl pushLine st2
      match rest.dropWhile (fun l => !isCodeFence l) with
      | closing :: rest' =>
        let st4 := pushLine st3 closing
        let j := i + 1 + body.length
        let st5 := if targetChunkSize ≤ st4.tokens
                   then flushChunk st4 (some (j + 2)) else st4
        chunkLoop fuel rest' (j + 1) st5
      | [] =>
        let st5 := if targetChunkSize ≤ st3.tokens
                   then flushChunk st3 (some (i + 2)) else st3
        chunkLoop fuel rest (i + 1) st5
    else
      chunkLoop fuel rest (i + 1) (chunkStep line rest i st)

/-- Model of chunkMarkdown from chunker.js. -/
def chunkMarkdown (content : Str) : List Chunk :=
  let lines := splitLines content
  (flushChunk (chunkLoop lines.length lines 0 ⟨[], [], 0, 1⟩) none).chunks

/-- Chunk with file metadata, as chunkFile returns it. -/
structure FileChunk where
  text : Str
  startLine : ℕ
  endLine : ℕ
  tokenCount : ℕ
  filePath : String
  chunkIndex : ℕ
deriving DecidableEq, Repr

/-- Model of chunkFile: attach the file path and a zero-based index, in
order, to each raw chunk. -/
def chunkFile (filePath : String) (content : Str) : List FileChunk :=
  (chunkMarkdown content).enum.map
    (fun p => ⟨p.2.text, p.2.startLine, p.2.endLine, p.2.tokenCount, filePath, p.1⟩)

/-- Number of lines of a document, the N of the partition claim. -/
def numLines (content : Str) : ℕ :=
  (splitLines content).length

/-- Little-endian byte encoding of one 32-bit word, as writeFloatLE lays
out the bits of one Float32Array element. -/
def wordToBytesLE (w : ℕ) : List ℕ :=
  [w % 256, w / 256 % 256, w / 65536 % 256, w / 16777216 % 256]

/-- Model of float32ArrayToBuffer from utils.js: each element of the
array, viewed as its 32-bit pattern, is written as four little-endian
bytes. -/
def float32ArrayToBuffer (arr : List ℕ) : List ℕ :=
  arr.flatMap wordToBytesLE

/-- Model of bufferToFloat32Array from utils.js: read the buffer back
four little-endian bytes at a time. -/
def bufferToFloat32Array : List ℕ → List ℕ
  | b0 :: b1 :: b2 :: b3 :: rest =>
    (b0 + 256 * b1 + 65536 * b2 + 16777216 * b3) :: bufferToFloat32Array rest
  | _ => []

/-- Model of clampLimit from search.js for a natural-number limit:
Math.max(1, Math.min(100, limit)). -/
def clampLimit (n : ℕ) : ℕ :=
  max 1 (min 100 n)

/-- Split at every character satisfying a predicate, the analogue of
splitOnChar for a character class. -/
def splitOnPred (p : Char → Bool) : Str → List Str
  | [] => [[]]
  | c :: rest =>
    let r := splitOnPred p rest
    if p c then [] :: r
    else
      match r with
      | hd :: tl => (c :: hd) :: tl
      | [] => [[c]]

/-- Tokenisation of the query in escapeFtsQuery: split on whitespace,
trim each piece, keep the non-empty ones.  Splitting on the regex \s+
and splitting at every whitespace character agree after empty pieces are
filtered out. -/
def queryTokens (q : Str) : List Str :=
  ((splitOnPred isWsChar q).map trimStr).filter (fun t => t ≠ [])

/-- Escape embedded double quotes: t.replace(/"/g, '""'). -/
def escQuotes : Str → Str
  | [] => []
  | c :: rest => if c = '"' then '"' :: '"' :: escQuotes rest else c :: escQuotes rest

/-- Wrap one escaped token in double quotes. -/
def quoteTok (t : Str) : Str :=
  '"' :: (escQuotes t ++ ['"'])

/-- Model of Array.prototype.join(' AND '). -/
def joinAnd : List Str → Str
  | [] => []
  | [t] => t
  | t :: rest => t ++ (" AND ".toList ++ joinAnd rest)

/-- Model of escapeFtsQuery from search.js. -/
def escapeFtsQuery (q : Str) : Str :=
  let tokens := queryTokens q
  if tokens = [] then []
  else joinAnd (tokens.map quoteTok)

/-- Row returned by the FTS5 ranking query, carrying the raw bm25 score
(an unbounded, sign-inverted rational in the model). -/
structure BmRow where
  chunkId : ℕ
  score : ℚ
deriving DecidableEq, Repr

/-- Search result of one leg, with the normalised score. -/
structure LegResult where
  chunkId : ℕ
  score : ℚ
  rawScore : ℚ
deriving DecidableEq, Repr

/-- Maximum of the absolute raw scores and 1, the normalisation divisor
Math.max(...scores, 1) of searchBM25. -/
def maxAbsScore (rows : List BmRow) : ℚ :=
  (rows.map (fun r => |r.score|)).foldr max 1

/-- Model of searchBM25 from search.js.  The SQLite store is abstracted
as the function db from the escaped MATCH query to the rows it returns
(already ordered and limited by the SQL); an empty escaped query returns
the empty result set without consulting db. -/
def searchBM25 (q : Str) (db : Str → List BmRow) : List LegResult :=
  let escaped := escapeFtsQuery q
  if escaped = [] then []
  else
    let results := db escaped
    let maxScore := maxAbsScore results
    results.map (fun r => ⟨r.chunkId, |r.score| / maxScore, r.score⟩)

/-- Stored candidate row of the vector scan: a chunk id and its decoded
embedding vector (metadata columns carried by the SQL join are opaque to
the ranking and omitted). -/
structure VCand where
  chunkId : ℕ
  embedding : List ℚ
deriving DecidableEq, Repr

/-- Entry built for each candidate in searchVector: the normalised score
and the raw cosine similarity. -/
structure VEntry where
  chunkId : ℕ
  score : ℚ
  rawScore : ℚ
deriving DecidableEq, Repr

/-- Model of cosineSimilarity from utils.js.  Fails when lengths differ,
returns 0 when either vector has zero norm, and otherwise divides the dot
product by the product of the norms.  The square root of the float code
is abstracted as the parameter sqrtFn; everything the claims use about
the similarity is independent of it. -/
def cosineSimilarity (sqrtFn : ℚ → ℚ) (a b : List ℚ) : Except String ℚ :=
  if a.length ≠ b.length then .error "Vectors must have the same length"
  else
    let dotProduct := ((a.zip b).map (fun p => p.1 * p.2)).sum
    let normA := (a.map (fun x => x * x)).sum
    let normB := (b.map (fun x => x * x)).sum
    if normA = 0 ∨ normB = 0 then .ok 0
    else .ok (dotProduct / (sqrtFn normA * sqrtFn normB))

/-- Normalisation of a similarity in searchVector:
Math.max(0, Math.min(1, (similarity + 1) / 2)). -/
def normalizeSim (sim : ℚ) : ℚ :=
  max 0 (min 1 ((sim + 1) / 2))

/-- Entry construction for one candidate of the scan. -/
def candidateEntry (sqrtFn : ℚ → ℚ) (q : List ℚ) (c : VCand) : Except String VEntry :=
  (cosineSimilarity sqrtFn q c.embedding).map
    (fun sim => ⟨c.chunkId, normalizeSim sim, sim⟩)

/-- Minimum-score scan of searchVector's inner loop: starting from a best
entry and its index, every later entry with a strictly smaller score
replaces the current best, so the result is the first position attaining
the minimum score. -/
def argminAux : List VEntry → ℕ → VEntry → ℕ → ℕ × VEntry
  | [], _, best, bi => (bi, best)
  | e :: rest, i, best, bi =>
    if e.score < best.score then argminAux rest (i + 1) e i
    else argminAux rest (i + 1) best bi

/-- Index and entry of the minimum of the retained set, as the loop
starting from top[0] computes them.  The list is never empty when this
runs, since the retained set is already full and the limit is at least
one; the empty case is a dead default. -/
def argminTop : List VEntry → ℕ × VEntry
  | [] => (0, ⟨0, 0, 0⟩)
  | t :: ts => argminAux ts 1 t 0

/-- One step of the bounded candidate set maintenance in searchVector:
admit unconditionally while fewer than limit entries are held, otherwise
replace the current minimum only on a strictly greater score. -/
def vstep (limit : ℕ) (top : List VEntry) (e : VEntry) : List VEntry :=
  if top.length < limit then top ++ [e]
  else
    let m := argminTop top
    if m.2.score < e.score then top.set m.1 e else top

/-- Full scan of the candidate entries maintaining the bounded top set. -/
def scanTopK (limit : ℕ) (es : List VEntry) : List VEntry :=
  es.foldl (vstep limit) []

/-- Stable descending insertion by a score projection: the element goes
in front of the first strictly smaller score, after any tie. -/
def insertByDesc (f : α → ℚ) (e : α) : List α → List α
  | [] => [e]
  | x :: xs => if f x ≤ f e then e :: x :: xs else x :: insertByDesc f e xs

/-- Stable sort descending by a score projection.  JavaScript's
Array.prototype.sort with comparator (a, b) => b.score - a.score is a
stable descending sort, and stability plus the ordering determine the
output uniquely, so any stable descending sort models it. -/
def sortByDesc (f : α → ℚ) : List α → List α
  | [] => []
  | x :: xs => insertByDesc f x (sortByDesc f xs)

/-- Final ordering of searchVector: sort descending by score, via the
comparator (a, b) => b.score - a.score. -/
def sortByScoreDesc (l : List VEntry) : List VEntry :=
  sortByDesc (fun e => e.score) l

/-- Model of searchVector from search.js.  The stored rows matching the
collection filter are the list cands; the query embedding is the result
of the generateQueryEmbedding call, an Except because the provider can
fail.  When no embeddings are stored the empty result is returned before
the provider would be consulted, so the result is ok even for a failing
provider. -/
def searchVector (sqrtFn : ℚ → ℚ) (embedQ : Except String (List ℚ))
    (cands : List VCand) (rawLimit : ℕ) : Except String (List VEntry) :=
  let limit := clampLimit rawLimit
  if cands.length = 0 then .ok []
  else do
    let q ← embedQ
    let es ← cands.mapM (candidateEntry sqrtFn q)
    .ok (sortByScoreDesc (scanTopK limit es))

/-- Entry of the fusion map of searchHybrid, one value of scoreMap. -/
structure HEntry where
  chunkId : ℕ
  bm25Score : ℚ
  vectorScore : ℚ
deriving DecidableEq, Repr

/-- Result of searchHybrid: the fused entry with its combined score. -/
structure HResult where
  chunkId : ℕ
  bm25Score : ℚ
  vectorScore : ℚ
  score : ℚ
deriving DecidableEq, Repr

/-- Model of scoreMap.set(chunkId, entry) on the association list of a
JavaScript Map: replace in place when the key is present, append
otherwise. -/
def mapSet (m : List HEntry) (e : HEntry) : List HEntry :=
  if m.any (fun x => x.chunkId = e.chunkId) then
    m.map (fun x => if x.chunkId = e.chunkId then e else x)
  else m ++ [e]

/-- Model of the vector pass of searchHybrid: mutate the vectorScore of
an existing entry in place, or append a fresh entry with bm25Score 0. -/
def addVector (m : List HEntry) (r : LegResult) : List HEntry :=
  if m.any (fun x => x.chunkId = r.chunkId) then
    m.map (fun x => if x.chunkId = r.chunkId then { x with vectorScore := r.score } else x)
  else m ++ [⟨r.chunkId, 0, r.score⟩]

/-- Catch of the vector leg failure in searchHybrid: a failing leg is
logged and treated as the empty vector result set. -/
def caughtVec (x : Except String (List LegResult)) : List LegResult :=
  match x with
  | .ok r => r
  | .error _ => []

/-- Fusion body of searchHybrid, given the two legs' result lists: build
the scoreMap (bm25 pass then vector pass), combine each entry's scores
with the weights, sort descending by combined score and truncate. -/
def fuseHybrid (bm25Results vectorResults : List LegResult)
    (limit : ℕ) (bm25Weight vectorWeight : ℚ) : List HResult :=
  let m1 := bm25Results.foldl (fun m r => mapSet m ⟨r.chunkId, r.score, 0⟩) []
  let m2 := vectorResults.foldl addVector m1
  let combined := m2.map
    (fun e => (⟨e.chunkId, e.bm25Score, e.vectorScore,
               e.bm25Score * bm25Weight + e.vectorScore * vectorWeight⟩ : HResult))
  (sortByDesc (fun r => r.score) combined).take (clampLimit limit)

/-- Model of searchHybrid from search.js.  The two legs are abstract
functions of the limit passed to them, each invoked at limit * 3; a
failing vector leg is caught and treated as the empty result set. -/
def searchHybrid (lexFn : ℕ → List LegResult)
    (vecFn : ℕ → Except String (List LegResult))
    (limit : ℕ) (bm25Weight vectorWeight : ℚ) : List HResult :=
  fuseHybrid (lexFn (limit * 3)) (caughtVec (vecFn (limit * 3)))
    limit bm25Weight vectorWeight

/-- Default weights of searchHybrid's options: bm25Weight 0.4 and
vectorWeight 0.6. -/
def searchHybridDefault (lexFn : ℕ → List LegResult)
    (vecFn : ℕ → Except String (List LegResult)) (limit : ℕ) : List HResult :=
  searchHybrid lexFn vecFn limit 0.4 0.6

/-- Row of the file_metadata table. -/
structure FileMeta where
  id : ℕ
  collectionId : ℕ
  path : String
  fileHash : String
deriving DecidableEq, Repr

/-- Row of the chunks table. -/
structure ChunkRec where
  id : ℕ
  fileMetadataId : ℕ
  chunkIndex : ℕ
  text : Str
  startLine : ℕ
  endLine : ℕ
  tokenCount : ℕ
deriving DecidableEq, Repr

/-- Row of the embeddings table; the BLOB is a byte list. -/
structure EmbRec where
  chunkId : ℕ
  blob : List ℕ
deriving DecidableEq, Repr

/-- The SQLite store, with the AUTOINCREMENT counters made explicit. -/
structure Store where
  files : List FileMeta
  chunks : List ChunkRec
  embeddings : List EmbRec
  nextFileId : ℕ
  nextChunkId : ℕ
deriving DecidableEq, Repr

/-- Well-formedness the schema guarantees: primary keys are unique and
below the AUTOINCREMENT counters, and (collection_id, file_path) pairs
are unique per the table's UNIQUE constraint. -/
def Store.wf (s : Store) : Prop :=
  (s.files.map (fun f => f.id)).Nodup ∧
  (s.files.map (fun f => (f.collectionId, f.path))).Nodup ∧
  (∀ f ∈ s.files, f.id < s.nextFileId) ∧
  (s.chunks.map (fun c => c.id)).Nodup ∧
  (∀ c ∈ s.chunks, c.id < s.nextChunkId)

instance (s : Store) : Decidable s.wf := by
  unfold Store.wf
  infer_instance

/-- Chunk ids owned by one file_metadata row, the rows the chunk cascade
of a DELETE removes. -/
def ownedChunkIds (s : Store) (fid : ℕ) : List ℕ :=
  (s.chunks.filter (fun c => c.fileMetadataId = fid)).map (fun c => c.id)

/-- Model of DELETE FROM file_metadata WHERE id = fid together with the
schema's ON DELETE CASCADE: the file row disappears, its chunks
disappear, and embeddings of those chunks disappear. -/
def deleteFileMetadata (s : Store) (fid : ℕ) : Store :=
  let dead := ownedChunkIds s fid
  { s with
    files := s.files.filter (fun f => ¬ f.id = fid),
    chunks := s.chunks.filter (fun c => ¬ c.fileMetadataId = fid),
    embeddings := s.embeddings.filter (fun e => ¬ e.chunkId ∈ dead) }

/-- State of one path on disk as indexFile observes it: missing file,
unreadable file, binary content, or readable text content. -/
inductive FileState where
  | absent
  | unreadable
  | binaryFile
  | textFile (content : Str)
deriving DecidableEq, Repr

/-- Disk abstraction: what reading each path yields. -/
abbrev Disk := String → FileState

/-- Insertion of a fresh file_metadata row plus its freshly chunked
chunk rows, the tail of indexFile.  Returns the store and the number of
chunks inserted. -/
def insertFreshDocument (hashFn : Str → String) (s : Store) (collectionId : ℕ)
    (path : String) (content : Str) : Store × ℕ :=
  let fid := s.nextFileId
  let s1 := { s with
              files := s.files ++ [⟨fid, collectionId, path, hashFn content⟩],
              nextFileId := fid + 1 }
  let chunks := chunkFile path content
  chunks.foldl
    (fun (acc : Store × ℕ) ch =>
      ({ acc.1 with
         chunks := acc.1.chunks ++
           [⟨acc.1.nextChunkId, fid, ch.chunkIndex, ch.text, ch.startLine,
             ch.endLine, ch.tokenCount⟩],
         nextChunkId := acc.1.nextChunkId + 1 }, acc.2 + 1))
    (s1, 0)

/-- Model of indexFile from the indexer.  Returns the updated store and
some chunkCount when the file was indexed, none when it was skipped for
any reason (missing, binary, unreadable, or unchanged fingerprint). -/
def indexFile (hashFn : Str → String) (disk : Disk) (s : Store)
    (collectionId : ℕ) (path : String) (forceReindex : Bool) : Store × Option ℕ :=
  match disk path with
  | .absent => (s, none)
  | d =>
    let existing := s.files.find? (fun f => f.collectionId = collectionId ∧ f.path = path)
    match d with
    | .absent => (s, none)
    | .binaryFile =>
      (match existing with
       | some f => deleteFileMetadata s f.id
       | none => s, none)
    | .unreadable => (s, none)
    | .textFile content =>
      let contentHash := hashFn content
      match existing with
      | some f =>
        if f.fileHash = contentHash ∧ forceReindex = false then (s, none)
        else
          let r := insertFreshDocument hashFn (deleteFileMetadata s f.id)
                     collectionId path content
          (r.1, some r.2)
      | none =>
        let r := insertFreshDocument hashFn s collectionId path content
        (r.1, some r.2)

/-- Per-collection counters reported by indexCollections. -/
structure Counts where
  files : ℕ
  indexed : ℕ
  skipped : ℕ
  removed : ℕ
  chunks : ℕ
deriving DecidableEq, Repr

/-- Model of one iteration of the collection loop of indexCollections:
delete every previously indexed document whose path is no longer among
the discovered files (counting them as removed), then run indexFile over
the discovered files, counting indexed and skipped. -/
def reindexCollection (hashFn : Str → String) (disk : Disk) (s : Store)
    (collectionId : ℕ) (files : List String) (full : Bool) : Store × Counts :=
  let existingFiles := s.files.filter (fun f => f.collectionId = collectionId)
  let removal := existingFiles.foldl
    (fun (acc : Store × ℕ) f =>
      if f.path ∈ files then acc else (deleteFileMetadata acc.1 f.id, acc.2 + 1))
    (s, 0)
  let pass := files.foldl
    (fun (acc : Store × ℕ × ℕ × ℕ) p =>
      let r := indexFile hashFn disk acc.1 collectionId p full
      match r.2 with
      | some ch => (r.1, acc.2.1 + 1, acc.2.2.1, acc.2.2.2 + ch)
      | none => (r.1, acc.2.1, acc.2.2.1 + 1, acc.2.2.2))
    (removal.1, 0, 0, 0)
  (pass.1, ⟨files.length, pass.2.1, pass.2.2.1, removal.2, pass.2.2.2⟩)

/-- Score a chunk id receives from one leg's result list: the score of
the first result with that id, or 0 when the id is absent. -/
def legLookup (rs : List LegResult) (cid : ℕ) : ℚ :=
  ((rs.find? (fun r => r.chunkId = cid)).map (fun r => r.score)).getD 0

/-- Invariant of the bounded scan: the retained set has min k n entries
drawn from the processed prefix, every processed candidate is either
retained or bounded by all retained scores, and before the set fills
nothing has been evicted. -/
def scanInv (k : ℕ) (processed top : List VEntry) : Prop :=
  top.length = min k processed.length ∧
  (∀ e ∈ top, e ∈ processed) ∧
  (∀ c ∈ processed, c ∈ top ∨ ∀ r ∈ top, c.score ≤ r.score) ∧
  (top.length < k → ∀ c ∈ processed, c ∈ top)

/-- No trace of the removed document f₀ is left in the store: no file
row with its id, no chunk owned by it, no embedding of its former
chunks, and the id counter is beyond its id so no later insertion can
reuse it. -/
def noTrace (f₀ : FileMeta) (dead : List ℕ) (t : Store) : Prop :=
  (∀ f ∈ t.files, f.id ≠ f₀.id) ∧
  (∀ c ∈ t.chunks, c.fileMetadataId ≠ f₀.id) ∧
  (∀ e ∈ t.embeddings, e.chunkId ∉ dead) ∧
  f₀.id < t.nextFileId

/-- Consistency of emitted chunks with the pending chunkStartLine: the
chunk ranges are consecutive from line 1 and end right before csl. -/
def chunksOk (chunks : List Chunk) (csl : ℕ) : Prop :=
  (chunks = [] → csl = 1) ∧
  (∀ c, chunks.head? = some c → c.startLine = 1) ∧
  (∀ c ∈ chunks, c.startLine ≤ c.endLine) ∧
  List.Chain' (fun a b => b.startLine = a.endLine + 1) chunks ∧
  (∀ c, chunks.getLast? = some c → c.endLine + 1 = csl)

/-- Boolean check that consecutive chunk ranges are valid and adjacent:
every startLine is at most its endLine and each chunk starts right after
the previous one ends. -/
def consecB : List Chunk → Bool
  | [] => true
  | [c] => decide (c.startLine ≤ c.endLine)
  | c1 :: c2 :: rest =>
    decide (c1.startLine ≤ c1.endLine) && decide (c2.startLine = c1.endLine + 1) &&
      consecB (c2 :: rest)

/-- Boolean rendering of the partition property of the claim: the chunk
ranges, in order, cover lines 1..n with no gaps and no overlaps. -/
def coversLinesB (cs : List Chunk) (n : ℕ) : Bool :=
  match cs with
  | [] => false
  | c :: _ =>
    decide (c.startLine = 1) && consecB cs &&
      (match cs.getLast? with
       | some cl => decide (cl.endLine = n)
       | none => false)

theorem wordToBytesLE_append_decode (w : ℕ) (hw : w < 4294967296) (tail : List ℕ) :
    bufferToFloat32Array (wordToBytesLE w ++ tail) = w :: bufferToFloat32Array tail := by
  simp only [wordToBytesLE, List.cons_append, List.nil_append, bufferToFloat32Array]
  have h : w % 256 + 256 * (w / 256 % 256) + 65536 * (w / 65536 % 256) +
      16777216 * (w / 16777216 % 256) = w := by omega
  rw [h]
  simp

/-- C10: decoding the buffer produced by encoding a Float32Array
round-trips exactly.  Float32Array elements are modelled by their 32-bit
patterns, the very words the byte codec reads and writes, so the codec
loses no information. -/
theorem c10_float32_codec_roundtrip (arr : List ℕ)
    (h : ∀ w ∈ arr, w < 4294967296) :
    bufferToFloat32Array (float32ArrayToBuffer arr) = arr ∧
    (bufferToFloat32Array (float32ArrayToBuffer arr)).length = arr.length := by
  have main : bufferToFloat32Array (float32ArrayToBuffer arr) = arr := by
    induction arr with
    | nil => rfl
    | cons w rest ih =>
      have hw : w < 4294967296 := h w (List.mem_cons_self w rest)
      have hrest := ih (fun x hx => h x (List.mem_cons_of_mem w hx))
      simp only [float32ArrayToBuffer, List.flatMap_cons] at hrest ⊢
      rw [wordToBytesLE_append_decode w hw, hrest]
  exact ⟨main, by rw [main]⟩

/-- Closed instance of the codec round-trip at a concrete array. -/
theorem c10_float32_codec_roundtrip_witness :
    bufferToFloat32Array (float32ArrayToBuffer [0, 1, 4294967295]) =
      [0, 1, 4294967295] :=
  (c10_float32_codec_roundtrip [0, 1, 4294967295] (by decide)).1

/-- C4: the claim says an unterminated code fence consumes all remaining
lines into one chunk containing each remaining line exactly once.  The
code forgets to advance the outer loop index after the fence scan runs
off the end of the document, so every line after the opening fence is
consumed by the fence scan and then processed again by the outer loop.
On the three-line document with an unterminated fence followed by lines
A and B, the produced chunk repeats A and B and its endLine is 5 for a
3-line document. -/
theorem c4_unterminated_fence_duplicates_lines :
    chunkMarkdown ("```\nA\nB".toList) =
      [⟨"```\nA\nB\nA\nB".toList, 1, 5, 3⟩] ∧
    numLines ("```\nA\nB".toList) = 3 := by
  constructor
  · decide
  · decide

/-- C9: when no stored embeddings match the filter, searchVector answers
the empty result set whatever the embedding provider call would return,
in particular when that call would fail: the count guard runs before the
provider is consulted, and the answer is ok, not an error. -/
theorem c9_no_embeddings_no_provider_call (sqrtFn : ℚ → ℚ)
    (embedQ : Except String (List ℚ)) (rawLimit : ℕ) :
    searchVector sqrtFn embedQ [] rawLimit = .ok [] := rfl

theorem one_le_maxAbsScore (rows : List BmRow) : 1 ≤ maxAbsScore rows := by
  unfold maxAbsScore
  induction rows with
  | nil => simp
  | cons r rest ih =>
    simp only [List.map_cons, List.foldr_cons]
    exact le_trans ih (le_max_right _ _)

theorem abs_le_maxAbsScore (rows : List BmRow) (r : BmRow) (h : r ∈ rows) :
    |r.score| ≤ maxAbsScore rows := by
  unfold maxAbsScore
  induction rows with
  | nil => cases h
  | cons x rest ih =>
    simp only [List.map_cons, List.foldr_cons]
    rcases List.mem_cons.mp h with rfl | hmem
    · exact le_max_left _ _
    · exact le_trans (ih hmem) (le_max_right _ _)

theorem joinAnd_quoted_ne_nil (ts : List Str) (h : ts ≠ []) :
    joinAnd (ts.map quoteTok) ≠ [] := by
  match ts with
  | [] => exact absurd rfl h
  | [t] => simp [joinAnd, quoteTok]
  | t :: t' :: rest => simp [joinAnd, quoteTok]

/-- C8: lexical search tokenises the query on whitespace and joins the
escaped, double-quoted tokens with AND (conjunctive exact-literal
semantics); an empty token list short-circuits to the empty result set
for every possible store; and every returned score is the absolute raw
score divided by the batch maximum of absolute raw scores (divisor at
least 1), hence lies in [0, 1]. -/
theorem c8_lexical_search_query_and_normalization (q : Str) (db : Str → List BmRow) :
    (queryTokens q = [] → searchBM25 q db = []) ∧
    (queryTokens q ≠ [] →
      escapeFtsQuery q = joinAnd ((queryTokens q).map quoteTok) ∧
      searchBM25 q db = (db (escapeFtsQuery q)).map
        (fun r => ⟨r.chunkId, |r.score| / maxAbsScore (db (escapeFtsQuery q)), r.score⟩)) ∧
    (∀ r ∈ searchBM25 q db,
      r.score = |r.rawScore| / maxAbsScore (db (escapeFtsQuery q)) ∧
      1 ≤ maxAbsScore (db (escapeFtsQuery q)) ∧
      0 ≤ r.score ∧ r.score ≤ 1) := by
  refine ⟨?_, ?_, ?_⟩
  · intro h
    simp [searchBM25, escapeFtsQuery, h]
  · intro h
    have hesc : escapeFtsQuery q = joinAnd ((queryTokens q).map quoteTok) := by
      simp [escapeFtsQuery, h]
    refine ⟨hesc, ?_⟩
    have hne : escapeFtsQuery q ≠ [] := by
      rw [hesc]
      exact joinAnd_quoted_ne_nil _ h
    simp only [searchBM25, if_neg hne]
  · intro r hr
    by_cases hemp : escapeFtsQuery q = []
    · simp [searchBM25, hemp] at hr
    · simp only [searchBM25, if_neg hemp, List.mem_map] at hr
      obtain ⟨row, hrow, rfl⟩ := hr
      have h1 : (1 : ℚ) ≤ maxAbsScore (db (escapeFtsQuery q)) := one_le_maxAbsScore _
      have h0 : (0 : ℚ) < maxAbsScore (db (escapeFtsQuery q)) := lt_of_lt_of_le one_pos h1
      have hle : |row.score| ≤ maxAbsScore (db (escapeFtsQuery q)) :=
        abs_le_maxAbsScore _ row hrow
      refine ⟨rfl, h1, ?_, ?_⟩
      · exact div_nonneg (abs_nonneg _) (le_of_lt h0)
      · exact (div_le_one h0).mpr hle

/-- Closed instance of the lexical-search theorem: the whitespace-only
query short-circuits for an arbitrary fixed store, and a quoted query is
escaped and joined with AND. -/
theorem c8_lexical_search_witness :
    searchBM25 ("  ".toList) (fun _ => [⟨1, -2⟩]) = [] ∧
    escapeFtsQuery ("a \"b".toList) =
      joinAnd ((queryTokens ("a \"b".toList)).map quoteTok) :=
  ⟨(c8_lexical_search_query_and_normalization ("  ".toList) (fun _ => [⟨1, -2⟩])).1
     (by decide),
   ((c8_lexical_search_query_and_normalization ("a \"b".toList) (fun _ => [⟨1, -2⟩])).2.1
     (by decide)).1⟩

theorem mem_insertByDesc {α} (f : α → ℚ) (e : α) (l : List α) (a : α) :
    a ∈ insertByDesc f e l ↔ a = e ∨ a ∈ l := by
  induction l with
  | nil => simp [insertByDesc]
  | cons x xs ih =>
    simp only [insertByDesc]
    split
    · simp [List.mem_cons]
    · simp only [List.mem_cons, ih]
      tauto

theorem insertByDesc_perm {α} (f : α → ℚ) (e : α) (l : List α) :
    (insertByDesc f e l).Perm (e :: l) := by
  induction l with
  | nil => simp [insertByDesc]
  | cons x xs ih =>
    simp only [insertByDesc]
    split
    · exact List.Perm.refl _
    · exact (ih.cons x).trans (List.Perm.swap e x xs)

theorem sortByDesc_perm {α} (f : α → ℚ) (l : List α) :
    (sortByDesc f l).Perm l := by
  induction l with
  | nil => exact List.Perm.refl _
  | cons x xs ih =>
    exact (insertByDesc_perm f x (sortByDesc f xs)).trans (ih.cons x)

theorem pairwise_insertByDesc {α} (f : α → ℚ) (e : α) (l : List α)
    (h : List.Pairwise (fun a b => f b ≤ f a) l) :
    List.Pairwise (fun a b => f b ≤ f a) (insertByDesc f e l) := by
  induction l with
  | nil => simp [insertByDesc]
  | cons x xs ih =>
    rw [List.pairwise_cons] at h
    obtain ⟨hx, hxs⟩ := h
    simp only [insertByDesc]
    split
    · rename_i hle
      rw [List.pairwise_cons]
      refine ⟨?_, List.pairwise_cons.mpr ⟨hx, hxs⟩⟩
      intro y hy
      rcases List.mem_cons.mp hy with rfl | hmem
      · exact hle
      · exact le_trans (hx y hmem) hle
    · rename_i hgt
      rw [List.pairwise_cons]
      refine ⟨?_, ih hxs⟩
      intro y hy
      rcases (mem_insertByDesc f e xs y).mp hy with rfl | hmem
      · exact le_of_not_le hgt
      · exact hx y hmem

theorem sortByDesc_sorted {α} (f : α → ℚ) (l : List α) :
    List.Pairwise (fun a b => f b ≤ f a) (sortByDesc f l) := by
  induction l with
  | nil => simp [sortByDesc]
  | cons x xs ih => exact pairwise_insertByDesc f x _ ih

theorem sortByDesc_of_sorted {α} (f : α → ℚ) (l : List α)
    (h : List.Pairwise (fun a b => f b ≤ f a) l) :
    sortByDesc f l = l := by
  induction l with
  | nil => rfl
  | cons x xs ih =>
    rw [List.pairwise_cons] at h
    obtain ⟨hx, hxs⟩ := h
    simp only [sortByDesc, ih hxs]
    cases xs with
    | nil => rfl
    | cons y ys =>
      simp only [insertByDesc, if_pos (hx y (List.mem_cons_self y ys))]

theorem legLookup_not_mem (rs : List LegResult) (c : ℕ)
    (h : c ∉ rs.map (fun r => r.chunkId)) : legLookup rs c = 0 := by
  unfold legLookup
  have : rs.find? (fun r => decide (r.chunkId = c)) = none := by
    rw [List.find?_eq_none]
    intro x hx
    simp only [decide_eq_true_eq]
    intro hxc
    exact h (List.mem_map.mpr ⟨x, hx, hxc⟩)
  rw [this]
  rfl

theorem legLookup_append_ne (pre : List LegResult) (r : LegResult) (c : ℕ)
    (h : ¬ r.chunkId = c) : legLookup (pre ++ [r]) c = legLookup pre c := by
  unfold legLookup
  rw [List.find?_append]
  cases hf : pre.find? (fun r => decide (r.chunkId = c)) with
  | some y => rfl
  | none =>
    simp [List.find?, h]

theorem legLookup_append_self (pre : List LegResult) (r : LegResult)
    (h : r.chunkId ∉ pre.map (fun x => x.chunkId)) :
    legLookup (pre ++ [r]) r.chunkId = r.score := by
  unfold legLookup
  rw [List.find?_append]
  have : pre.find? (fun x => decide (x.chunkId = r.chunkId)) = none := by
    rw [List.find?_eq_none]
    intro x hx
    simp only [decide_eq_true_eq]
    intro hxc
    exact h (List.mem_map.mpr ⟨x, hx, hxc⟩)
  rw [this]
  simp [List.find?]

theorem find?_unique_key {α β : Type} [DecidableEq β] (p : α → Bool) (key : α → β)
    (k : β) (hp : ∀ y, p y = true ↔ key y = k) :
    ∀ (l : List α) (x : α), x ∈ l → key x = k → (l.map key).Nodup →
      l.find? p = some x := by
  intro l
  induction l with
  | nil => intro x hx; cases hx
  | cons h t ih =>
    intro x hx hkx hnd
    rw [List.map_cons, List.nodup_cons] at hnd
    obtain ⟨hh, ht⟩ := hnd
    by_cases hph : p h = true
    · have hkey : key h = k := (hp h).mp hph
      have hxh : x = h := by
        rcases List.mem_cons.mp hx with rfl | hmem
        · rfl
        · exfalso
          have hx' : key x ∈ t.map key := List.mem_map.mpr ⟨x, hmem, rfl⟩
          rw [hkx, ← hkey] at hx'
          exact hh hx'
      rw [List.find?_cons, hph, hxh]
    · have hxh : x ≠ h := by
        intro heq
        exact hph (by rw [heq] at hkx; exact (hp h).mpr hkx)
      have hmem : x ∈ t := by
        rcases List.mem_cons.mp hx with rfl | hmem
        · exact absurd rfl hxh
        · exact hmem
      rw [List.find?_cons]
      have : p h = false := by simp [hph]
      rw [this]
      exact ih x hmem hkx ht

theorem legLookup_mem (rs : List LegResult) (r : LegResult) (hr : r ∈ rs)
    (hnd : (rs.map (fun x => x.chunkId)).Nodup) :
    legLookup rs r.chunkId = r.score := by
  unfold legLookup
  rw [find?_unique_key (fun x => decide (x.chunkId = r.chunkId))
        (fun x => x.chunkId) r.chunkId (fun y => by simp) rs r hr rfl hnd]
  rfl

theorem foldl_mapSet_of_nodup :
    ∀ (rs : List LegResult) (m : List HEntry),
    ((m.map (fun e => e.chunkId)) ++ rs.map (fun r => r.chunkId)).Nodup →
    rs.foldl (fun m r => mapSet m ⟨r.chunkId, r.score, 0⟩) m =
      m ++ rs.map (fun r => (⟨r.chunkId, r.score, 0⟩ : HEntry)) := by
  intro rs
  induction rs with
  | nil => intro m _; simp
  | cons r rest ih =>
    intro m hnd
    have hfresh : r.chunkId ∉ m.map (fun e => e.chunkId) := by
      intro hmem
      rw [List.nodup_append] at hnd
      exact hnd.2.2 hmem (by simp)
    have hany : m.any (fun x => decide (x.chunkId = r.chunkId)) = false := by
      rw [List.any_eq_false]
      intro x hx
      simp only [decide_eq_true_eq]
      intro hxc
      exact hfresh (List.mem_map.mpr ⟨x, hx, hxc⟩)
    have hstep : mapSet m ⟨r.chunkId, r.score, 0⟩ = m ++ [⟨r.chunkId, r.score, 0⟩] := by
      unfold mapSet
      rw [hany]
      simp
    have hnd' : (((m ++ [(⟨r.chunkId, r.score, 0⟩ : HEntry)]).map (fun e => e.chunkId)) ++
        rest.map (fun r => r.chunkId)).Nodup := by
      simp only [List.map_append, List.map_cons, List.map_nil] at hnd ⊢
      simpa [List.append_assoc] using hnd
    have ihx := ih (m ++ [⟨r.chunkId, r.score, 0⟩]) hnd'
    rw [List.foldl_cons, hstep, ihx]
    simp

theorem foldl_addVector_spec (lex : List LegResult) :
    ∀ (vrs pre : List LegResult) (m : List HEntry),
    ((pre ++ vrs).map (fun r => r.chunkId)).Nodup →
    (m.map (fun e => e.chunkId)).Nodup →
    (∀ c : ℕ, (c ∈ m.map (fun e => e.chunkId)) ↔
       (c ∈ lex.map (fun r => r.chunkId)) ∨ (c ∈ pre.map (fun r => r.chunkId))) →
    (∀ e ∈ m, e.bm25Score = legLookup lex e.chunkId) →
    (∀ e ∈ m, e.vectorScore = legLookup pre e.chunkId) →
    (∀ e ∈ vrs.foldl addVector m, e.bm25Score = legLookup lex e.chunkId) ∧
    (∀ e ∈ vrs.foldl addVector m, e.vectorScore = legLookup (pre ++ vrs) e.chunkId) := by
  intro vrs
  induction vrs with
  | nil =>
    intro pre m _ _ _ hbm hvec
    refine ⟨hbm, ?_⟩
    intro e he
    rw [List.append_nil]
    exact hvec e he
  | cons r rest ih =>
    intro pre m hnd hmnd hiff hbm hvec
    have hrpre : r.chunkId ∉ pre.map (fun x => x.chunkId) := by
      intro hmem
      rw [List.map_append, List.nodup_append] at hnd
      exact hnd.2.2 hmem (by simp)
    have hassoc : pre ++ r :: rest = (pre ++ [r]) ++ rest := by simp
    have hnd' : (((pre ++ [r]) ++ rest).map (fun x => x.chunkId)).Nodup := by
      rw [← hassoc]; exact hnd
    rw [List.foldl_cons]
    by_cases hA : m.any (fun x => decide (x.chunkId = r.chunkId)) = true
    · -- key already present: vectorScore is updated in place
      obtain ⟨x0, hx0, hx0c⟩ := List.any_eq_true.mp hA
      rw [decide_eq_true_eq] at hx0c
      have hstep : addVector m r = m.map
          (fun x => if x.chunkId = r.chunkId then { x with vectorScore := r.score } else x) := by
        unfold addVector
        rw [if_pos hA]
      have hkeys : (addVector m r).map (fun e => e.chunkId) = m.map (fun e => e.chunkId) := by
        rw [hstep, List.map_map]
        apply List.map_congr_left
        intro x _
        by_cases hc : x.chunkId = r.chunkId <;> simp [hc]
      have hiff' : ∀ c : ℕ, (c ∈ (addVector m r).map (fun e => e.chunkId)) ↔
          (c ∈ lex.map (fun x => x.chunkId)) ∨ (c ∈ (pre ++ [r]).map (fun x => x.chunkId)) := by
        intro c
        rw [hkeys, hiff c]
        have hx0mem : x0.chunkId ∈ m.map (fun e => e.chunkId) :=
          List.mem_map.mpr ⟨x0, hx0, rfl⟩
        have hx0lp := (hiff x0.chunkId).mp hx0mem
        simp only [List.map_append, List.mem_append, List.map_cons, List.map_nil,
          List.mem_singleton]
        constructor
        · rintro (hl | hp)
          · exact Or.inl hl
          · exact Or.inr (Or.inl hp)
        · rintro (hl | hp | hc)
          · exact Or.inl hl
          · exact Or.inr hp
          · subst hc
            rw [← hx0c]
            exact hx0lp
      have hbm' : ∀ e ∈ addVector m r, e.bm25Score = legLookup lex e.chunkId := by
        intro e he
        rw [hstep, List.mem_map] at he
        obtain ⟨x, hx, rfl⟩ := he
        by_cases hc : x.chunkId = r.chunkId
        · rw [if_pos hc]
          exact hbm x hx
        · rw [if_neg hc]
          exact hbm x hx
      have hvec' : ∀ e ∈ addVector m r, e.vectorScore = legLookup (pre ++ [r]) e.chunkId := by
        intro e he
        rw [hstep, List.mem_map] at he
        obtain ⟨x, hx, rfl⟩ := he
        by_cases hc : x.chunkId = r.chunkId
        · rw [if_pos hc]
          show r.score = legLookup (pre ++ [r]) x.chunkId
          rw [hc, legLookup_append_self pre r hrpre]
        · rw [if_neg hc]
          show x.vectorScore = legLookup (pre ++ [r]) x.chunkId
          rw [legLookup_append_ne pre r x.chunkId (fun h => hc h.symm)]
          exact hvec x hx
      have h1 := ih (pre ++ [r]) (addVector m r) hnd'
        (by rw [hkeys]; exact hmnd) hiff' hbm' hvec'
      refine ⟨h1.1, ?_⟩
      intro e he
      rw [hassoc]
      exact h1.2 e he
    · -- fresh key: a vector-only entry is appended
      have hrm : r.chunkId ∉ m.map (fun e => e.chunkId) := by
        intro hmem
        obtain ⟨x, hx, hxc⟩ := List.mem_map.mp hmem
        exact hA (List.any_eq_true.mpr ⟨x, hx, by simp [hxc]⟩)
      have hstep : addVector m r = m ++ [⟨r.chunkId, 0, r.score⟩] := by
        unfold addVector
        rw [if_neg hA]
      have hrlex : r.chunkId ∉ lex.map (fun x => x.chunkId) := by
        intro hmem
        exact hrm ((hiff r.chunkId).mpr (Or.inl hmem))
      have hmnd' : ((addVector m r).map (fun e => e.chunkId)).Nodup := by
        rw [hstep]
        simp only [List.map_append, List.map_cons, List.map_nil]
        rw [List.nodup_append]
        refine ⟨hmnd, by simp, ?_⟩
        intro a ha
        simp only [List.mem_singleton]
        intro hae
        subst hae
        exact hrm ha
      have hiff' : ∀ c : ℕ, (c ∈ (addVector m r).map (fun e => e.chunkId)) ↔
          (c ∈ lex.map (fun x => x.chunkId)) ∨ (c ∈ (pre ++ [r]).map (fun x => x.chunkId)) := by
        intro c
        rw [hstep]
        simp only [List.map_append, List.mem_append, List.map_cons, List.map_nil,
          List.mem_singleton]
        rw [hiff c]
        tauto
      have hbm' : ∀ e ∈ addVector m r, e.bm25Score = legLookup lex e.chunkId := by
        intro e he
        rw [hstep, List.mem_append] at he
        rcases he with he | he
        · exact hbm e he
        · rw [List.mem_singleton] at he
          subst he
          show (0 : ℚ) = legLookup lex r.chunkId
          rw [legLookup_not_mem lex r.chunkId hrlex]
      have hvec' : ∀ e ∈ addVector m r, e.vectorScore = legLookup (pre ++ [r]) e.chunkId := by
        intro e he
        rw [hstep, List.mem_append] at he
        rcases he with he | he
        · have hne : e.chunkId ≠ r.chunkId := by
            intro hc
            exact hrm (hc ▸ List.mem_map.mpr ⟨e, he, rfl⟩)
          rw [legLookup_append_ne pre r e.chunkId (fun h => hne h.symm)]
          exact hvec e he
        · rw [List.mem_singleton] at he
          subst he
          show r.score = legLookup (pre ++ [r]) r.chunkId
          rw [legLookup_append_self pre r hrpre]
      have h1 := ih (pre ++ [r]) (addVector m r) hnd' hmnd' hiff' hbm' hvec'
      refine ⟨h1.1, ?_⟩
      intro e he
      rw [hassoc]
      exact h1.2 e he

theorem fuseHybrid_map_lemma (lex vrs : List LegResult) (k : ℕ) (w1 w2 : ℚ)
    (hlex : (lex.map (fun r => r.chunkId)).Nodup)
    (hvec : (vrs.map (fun r => r.chunkId)).Nodup) :
    ∀ r ∈ fuseHybrid lex vrs k w1 w2,
      r.score = legLookup lex r.chunkId * w1 + legLookup vrs r.chunkId * w2 := by
  intro r hr
  have hm1 : lex.foldl (fun m r => mapSet m ⟨r.chunkId, r.score, 0⟩) [] =
      lex.map (fun r => (⟨r.chunkId, r.score, 0⟩ : HEntry)) := by
    have := foldl_mapSet_of_nodup lex [] (by simpa using hlex)
    simpa using this
  have hm1keys : (lex.map (fun r => (⟨r.chunkId, r.score, 0⟩ : HEntry))).map
      (fun e => e.chunkId) = lex.map (fun r => r.chunkId) := by
    rw [List.map_map]
    rfl
  have hspec := foldl_addVector_spec lex vrs []
    (lex.map (fun r => (⟨r.chunkId, r.score, 0⟩ : HEntry)))
    (by simpa using hvec)
    (by rw [hm1keys]; exact hlex)
    (by intro c; rw [hm1keys]; simp)
    (by
      intro e he
      rw [List.mem_map] at he
      obtain ⟨x, hx, rfl⟩ := he
      exact (legLookup_mem lex x hx hlex).symm)
    (by
      intro e he
      rw [List.mem_map] at he
      obtain ⟨x, hx, rfl⟩ := he
      rfl)
  obtain ⟨Hbm, Hvec⟩ := hspec
  simp only [List.nil_append] at Hvec
  unfold fuseHybrid at hr
  simp only [hm1] at hr
  set m2 := vrs.foldl addVector
    (lex.map (fun r => (⟨r.chunkId, r.score, 0⟩ : HEntry))) with hm2def
  have hr' : r ∈ m2.map (fun e =>
      (⟨e.chunkId, e.bm25Score, e.vectorScore,
        e.bm25Score * w1 + e.vectorScore * w2⟩ : HResult)) := by
    have hp := sortByDesc_perm (fun r : HResult => r.score)
      (m2.map (fun e => (⟨e.chunkId, e.bm25Score, e.vectorScore,
        e.bm25Score * w1 + e.vectorScore * w2⟩ : HResult)))
    exact hp.mem_iff.mp (List.mem_of_mem_take hr)
  rw [List.mem_map] at hr'
  obtain ⟨e, he, rfl⟩ := hr'
  show e.bm25Score * w1 + e.vectorScore * w2 = _
  rw [Hbm e he, Hvec e he]

/-- C2: every hybrid result's score is the lexical normalised score (0
when the chunk is absent from the lexical leg) times the lexical weight
plus the vector normalised score (0 when absent) times the vector
weight; the output is sorted descending by that score and holds at most
k results; the legs are invoked at limit 3k; and the default weights are
0.4 lexical and 0.6 vector. -/
theorem c2_hybrid_fusion (lexFn : ℕ → List LegResult)
    (vecFn : ℕ → Except String (List LegResult)) (k : ℕ) (w1 w2 : ℚ)
    (hk : 1 ≤ k)
    (hlex : ((lexFn (k * 3)).map (fun r => r.chunkId)).Nodup)
    (hvec : ((caughtVec (vecFn (k * 3))).map (fun r => r.chunkId)).Nodup) :
    (∀ r ∈ searchHybrid lexFn vecFn k w1 w2,
       r.score = legLookup (lexFn (k * 3)) r.chunkId * w1 +
         legLookup (caughtVec (vecFn (k * 3))) r.chunkId * w2) ∧
    List.Pairwise (fun a b => b.score ≤ a.score) (searchHybrid lexFn vecFn k w1 w2) ∧
    (searchHybrid lexFn vecFn k w1 w2).length ≤ k ∧
    searchHybrid lexFn vecFn k w1 w2 =
      fuseHybrid (lexFn (k * 3)) (caughtVec (vecFn (k * 3))) k w1 w2 ∧
    searchHybridDefault lexFn vecFn k = searchHybrid lexFn vecFn k 0.4 0.6 := by
  refine ⟨?_, ?_, ?_, rfl, rfl⟩
  · exact fuseHybrid_map_lemma (lexFn (k * 3)) (caughtVec (vecFn (k * 3))) k w1 w2
      hlex hvec
  · show List.Pairwise _ (fuseHybrid _ _ _ _ _)
    unfold fuseHybrid
    exact (sortByDesc_sorted _ _).sublist (List.take_sublist _ _)
  · show (fuseHybrid _ _ _ _ _).length ≤ k
    unfold fuseHybrid
    have h1 : clampLimit k ≤ k := by
      unfold clampLimit
      omega
    calc (List.take (clampLimit k) _).length ≤ clampLimit k := by
          rw [List.length_take]; exact min_le_left _ _
      _ ≤ k := h1

/-- Closed instance of the hybrid fusion theorem at two one-element
legs. -/
theorem c2_hybrid_fusion_witness :
    (searchHybrid (fun _ => [⟨1, 2, -3⟩]) (fun _ => .ok [⟨2, 1, 1⟩]) 2 0.4 0.6).length ≤ 2 ∧
    searchHybridDefault (fun _ => [⟨1, 2, -3⟩]) (fun _ => .ok [⟨2, 1, 1⟩]) 2 =
      searchHybrid (fun _ => [⟨1, 2, -3⟩]) (fun _ => .ok [⟨2, 1, 1⟩]) 2 0.4 0.6 := by
  have h := c2_hybrid_fusion (fun _ => [⟨1, 2, -3⟩]) (fun _ => .ok [⟨2, 1, 1⟩]) 2 0.4 0.6
    (by decide) (by decide) (by decide)
  exact ⟨h.2.2.1, h.2.2.2.2⟩

/-- C6: when the vector leg raises, hybrid search does not fail: the
error is caught, the vector result set is empty, and the output is the
lexical leg truncated to the limit with every score scaled by the
lexical weight (the vector contribution is 0). -/
theorem c6_hybrid_degrades_to_lexical (lexFn : ℕ → List LegResult)
    (vecFn : ℕ → Except String (List LegResult)) (k : ℕ) (w1 w2 : ℚ) (msg : String)
    (herr : vecFn (k * 3) = .error msg)
    (hlex : ((lexFn (k * 3)).map (fun r => r.chunkId)).Nodup)
    (hsorted : List.Pairwise (fun a b => b.score ≤ a.score) (lexFn (k * 3)))
    (hw : 0 ≤ w1) :
    searchHybrid lexFn vecFn k w1 w2 =
      ((lexFn (k * 3)).take (clampLimit k)).map
        (fun r => (⟨r.chunkId, r.score, 0, r.score * w1⟩ : HResult)) := by
  have hcaught : caughtVec (vecFn (k * 3)) = [] := by
    rw [herr]
    rfl
  show fuseHybrid (lexFn (k * 3)) (caughtVec (vecFn (k * 3))) k w1 w2 = _
  rw [hcaught]
  set lex := lexFn (k * 3) with hlexdef
  have hm1 : lex.foldl (fun m r => mapSet m ⟨r.chunkId, r.score, 0⟩) [] =
      lex.map (fun r => (⟨r.chunkId, r.score, 0⟩ : HEntry)) := by
    have := foldl_mapSet_of_nodup lex [] (by simpa using hlex)
    simpa using this
  unfold fuseHybrid
  simp only [List.foldl_nil, hm1, List.map_map]
  have hcomb : lex.map ((fun e => (⟨e.chunkId, e.bm25Score, e.vectorScore,
        e.bm25Score * w1 + e.vectorScore * w2⟩ : HResult)) ∘
      (fun r => (⟨r.chunkId, r.score, 0⟩ : HEntry))) =
      lex.map (fun r => (⟨r.chunkId, r.score, 0, r.score * w1⟩ : HResult)) := by
    apply List.map_congr_left
    intro x _
    show (⟨x.chunkId, x.score, 0, x.score * w1 + 0 * w2⟩ : HResult) = _
    have : x.score * w1 + 0 * w2 = x.score * w1 := by ring
    rw [this]
  rw [hcomb]
  have hsorted' : List.Pairwise (fun a b : HResult => b.score ≤ a.score)
      (lex.map (fun r => (⟨r.chunkId, r.score, 0, r.score * w1⟩ : HResult))) := by
    rw [List.pairwise_map]
    exact hsorted.imp (fun h => mul_le_mul_of_nonneg_right h hw)
  rw [sortByDesc_of_sorted _ _ hsorted', List.map_take]

/-- Closed instance of the degradation theorem: a failing vector leg
yields exactly the scaled lexical results. -/
theorem c6_hybrid_degrades_witness :
    searchHybrid (fun _ => [⟨1, 2, -3⟩, ⟨2, 1, -2⟩]) (fun _ => .error "down") 1 1 1 =
      (((fun (_ : ℕ) => [(⟨1, 2, -3⟩ : LegResult), ⟨2, 1, -2⟩]) (1 * 3)).take
        (clampLimit 1)).map
        (fun r => (⟨r.chunkId, r.score, 0, r.score * 1⟩ : HResult)) :=
  c6_hybrid_degrades_to_lexical (fun _ => [⟨1, 2, -3⟩, ⟨2, 1, -2⟩])
    (fun _ => .error "down") 1 1 1 "down" rfl (by decide) (by decide) (by decide)

theorem argminAux_spec :
    ∀ (rest full : List VEntry) (i bi : ℕ) (be : VEntry),
    full.drop i = rest → full[bi]? = some be → bi < i →
    (argminAux rest i be bi).1 < full.length ∧
    full[(argminAux rest i be bi).1]? = some (argminAux rest i be bi).2 ∧
    (argminAux rest i be bi).2.score ≤ be.score ∧
    ∀ e ∈ rest, (argminAux rest i be bi).2.score ≤ e.score := by
  intro rest
  induction rest with
  | nil =>
    intro full i bi be _ hbv _
    obtain ⟨hlt, _⟩ := List.getElem?_eq_some.mp hbv
    exact ⟨hlt, hbv, le_refl _, by intro e he; cases he⟩
  | cons e rest' ih =>
    intro full i bi be hdrop hbv hbi
    have hie : full[i]? = some e := by
      have h0 := List.getElem?_drop full i 0
      rw [hdrop] at h0
      simpa using h0.symm
    have hdrop' : full.drop (i + 1) = rest' := by
      have := List.drop_drop 1 i full
      rw [hdrop] at this
      simpa using this.symm
    simp only [argminAux]
    by_cases hlt : e.score < be.score
    · rw [if_pos hlt]
      have h := ih full (i + 1) i e hdrop' hie (by omega)
      refine ⟨h.1, h.2.1, le_trans h.2.2.1 (le_of_lt hlt), ?_⟩
      intro x hx
      rcases List.mem_cons.mp hx with rfl | hmem
      · exact h.2.2.1
      · exact h.2.2.2 x hmem
    · rw [if_neg hlt]
      have h := ih full (i + 1) bi be hdrop' hbv (by omega)
      refine ⟨h.1, h.2.1, h.2.2.1, ?_⟩
      intro x hx
      rcases List.mem_cons.mp hx with rfl | hmem
      · exact le_trans h.2.2.1 (le_of_not_lt hlt)
      · exact h.2.2.2 x hmem

theorem argmin_spec (t : VEntry) (ts : List VEntry) :
    (argminAux ts 1 t 0).1 < (t :: ts).length ∧
    (t :: ts)[(argminAux ts 1 t 0).1]? = some (argminAux ts 1 t 0).2 ∧
    ∀ e ∈ t :: ts, (argminAux ts 1 t 0).2.score ≤ e.score := by
  have h := argminAux_spec ts (t :: ts) 1 0 t (by simp) (by simp) (by omega)
  refine ⟨h.1, h.2.1, ?_⟩
  intro e he
  rcases List.mem_cons.mp he with rfl | hmem
  · exact h.2.2.1
  · exact h.2.2.2 e hmem

theorem vstep_inv (k : ℕ) (hk : 1 ≤ k) (processed top : List VEntry) (e : VEntry)
    (h : scanInv k processed top) : scanInv k (processed ++ [e]) (vstep k top e) := by
  obtain ⟨hlen, hsub, hdom, hall⟩ := h
  unfold vstep
  by_cases hfull : top.length < k
  · rw [if_pos hfull]
    refine ⟨?_, ?_, ?_, ?_⟩
    · simp only [List.length_append, List.length_cons, List.length_nil]
      omega
    · intro x hx
      rcases List.mem_append.mp hx with hx | hx
      · exact List.mem_append.mpr (Or.inl (hsub x hx))
      · exact List.mem_append.mpr (Or.inr hx)
    · intro c hc
      rcases List.mem_append.mp hc with hc | hc
      · exact Or.inl (List.mem_append.mpr (Or.inl (hall hfull c hc)))
      · exact Or.inl (List.mem_append.mpr (Or.inr hc))
    · intro _ c hc
      rcases List.mem_append.mp hc with hc | hc
      · exact List.mem_append.mpr (Or.inl (hall hfull c hc))
      · exact List.mem_append.mpr (Or.inr hc)
  · rw [if_neg hfull]
    have hlenk : top.length = k := by omega
    have hklep : k ≤ processed.length := by omega
    obtain ⟨t, ts, rfl⟩ : ∃ t ts, top = t :: ts := by
      cases top with
      | nil =>
        exfalso
        simp at hlenk
        omega
      | cons t ts => exact ⟨t, ts, rfl⟩
    simp only [argminTop]
    obtain ⟨hmi, hmv, hmin⟩ := argmin_spec t ts
    have hmmem : (argminAux ts 1 t 0).2 ∈ t :: ts := List.getElem?_mem hmv
    by_cases hrepl : (argminAux ts 1 t 0).2.score < e.score
    · rw [if_pos hrepl]
      refine ⟨?_, ?_, ?_, ?_⟩
      · simp only [List.length_set, List.length_append, List.length_cons, List.length_nil]
        simp only [List.length_cons] at hlenk
        omega
      · intro x hx
        rcases List.mem_or_eq_of_mem_set hx with hx | rfl
        · exact List.mem_append.mpr (Or.inl (hsub x hx))
        · exact List.mem_append.mpr (Or.inr (by simp))
      · intro c hc
        rcases List.mem_append.mp hc with hc | hc
        · rcases hdom c hc with hin | hle
          · obtain ⟨j, hj, hcj⟩ := List.getElem_of_mem hin
            by_cases hjm : j = (argminAux ts 1 t 0).1
            · subst hjm
              have hceq : c = (argminAux ts 1 t 0).2 := by
                rw [List.getElem?_eq_getElem hj] at hmv
                rw [← hcj]
                exact Option.some.inj hmv
              subst hceq
              refine Or.inr ?_
              intro r hr
              rcases List.mem_or_eq_of_mem_set hr with hr | rfl
              · exact hmin r hr
              · exact le_of_lt hrepl
            · refine Or.inl ?_
              have hx : ((t :: ts).set (argminAux ts 1 t 0).1 e)[j]? = some c := by
                rw [List.getElem?_set_ne (fun h => hjm h.symm), List.getElem?_eq_getElem hj, hcj]
              exact List.getElem?_mem hx
          · refine Or.inr ?_
            intro r hr
            rcases List.mem_or_eq_of_mem_set hr with hr | rfl
            · exact hle r hr
            · exact le_trans (hle _ hmmem) (le_of_lt hrepl)
        · rw [List.mem_singleton] at hc
          subst hc
          exact Or.inl (List.getElem?_mem (List.getElem?_set_self hmi))
      · intro hcon
        exfalso
        rw [List.length_set] at hcon
        omega
    · rw [if_neg hrepl]
      refine ⟨?_, ?_, ?_, ?_⟩
      · simp only [List.length_cons, List.length_append, List.length_nil] at hlenk ⊢
        omega
      · intro x hx
        exact List.mem_append.mpr (Or.inl (hsub x hx))
      · intro c hc
        rcases List.mem_append.mp hc with hc | hc
        · exact hdom c hc
        · rw [List.mem_singleton] at hc
          subst hc
          refine Or.inr ?_
          intro r hr
          exact le_trans (le_of_not_lt hrepl) (hmin r hr)
      · intro hcon
        exfalso
        omega

theorem scan_foldl_inv (k : ℕ) (hk : 1 ≤ k) :
    ∀ (es processed top : List VEntry), scanInv k processed top →
    scanInv k (processed ++ es) (es.foldl (vstep k) top) := by
  intro es
  induction es with
  | nil =>
    intro processed top h
    simpa using h
  | cons e es' ih =>
    intro processed top h
    rw [List.foldl_cons]
    have h1 := ih (processed ++ [e]) (vstep k top e) (vstep_inv k hk processed top e h)
    simpa [List.append_assoc] using h1

theorem scanTopK_inv (k : ℕ) (hk : 1 ≤ k) (es : List VEntry) :
    scanInv k es (scanTopK k es) := by
  have h := scan_foldl_inv k hk es [] [] (by refine ⟨by simp, ?_, ?_, ?_⟩ <;> simp)
  simpa using h

theorem mapM_ok_mem {α β : Type} (f : α → Except String β) :
    ∀ (l : List α) (out : List β), l.mapM f = .ok out →
    ∀ b ∈ out, ∃ a ∈ l, f a = .ok b := by
  intro l
  induction l with
  | nil =>
    intro out h b hb
    rw [List.mapM_nil] at h
    have : out = [] := Except.ok.inj h.symm
    subst this
    cases hb
  | cons a t ih =>
    intro out h b hb
    rw [List.mapM_cons] at h
    cases hfa : f a with
    | error msg =>
      rw [hfa] at h
      simp only [bind, Except.bind] at h
      cases h
    | ok b0 =>
      rw [hfa] at h
      simp only [bind, Except.bind] at h
      cases hmt : t.mapM f with
      | error msg =>
        rw [hmt] at h
        cases h
      | ok bs =>
        rw [hmt] at h
        simp only [pure, Except.pure] at h
        have : b0 :: bs = out := Except.ok.inj h
        subst this
        rcases List.mem_cons.mp hb with rfl | hmem
        · exact ⟨a, List.mem_cons_self a t, hfa⟩
        · obtain ⟨a', ha', hfa'⟩ := ih bs hmt b hmem
          exact ⟨a', List.mem_cons_of_mem a ha', hfa'⟩

theorem normalizeSim_of_bounded (sim : ℚ) (h1 : -1 ≤ sim) (h2 : sim ≤ 1) :
    normalizeSim sim = (sim + 1) / 2 := by
  unfold normalizeSim
  have hlo : (0 : ℚ) ≤ (sim + 1) / 2 := by
    apply div_nonneg
    · linarith
    · norm_num
  have hhi : (sim + 1) / 2 ≤ 1 := by
    rw [div_le_one (by norm_num : (0 : ℚ) < 2)]
    linarith
  rw [min_eq_right hhi, max_eq_right hlo]

theorem candidateEntry_shape (sqrtFn : ℚ → ℚ) (q : List ℚ) (c : VCand) (e : VEntry)
    (h : candidateEntry sqrtFn q c = .ok e) :
    e.chunkId = c.chunkId ∧ e.score = normalizeSim e.rawScore := by
  unfold candidateEntry at h
  cases hcs : cosineSimilarity sqrtFn q c.embedding with
  | error msg =>
    rw [hcs] at h
    cases h
  | ok sim =>
    rw [hcs] at h
    simp only [Except.map] at h
    have := Except.ok.inj h
    subst this
    exact ⟨rfl, rfl⟩

/-- C3: on a non-empty candidate set and a valid limit, searchVector
returns the sorted scan of the candidate entries; the retained set has
exactly min k n entries drawn from the candidates, every candidate not
retained scores no higher than any retained one, the output is sorted
descending by normalised score; every entry's score is the clamped
(similarity + 1) / 2, which equals (similarity + 1) / 2 whenever the
similarity lies in [-1, 1]; and the scan admits unconditionally while
fewer than k entries are held, once full replacing the current minimum
exactly when the candidate's score is strictly greater. -/
theorem c3_vector_topk (sqrtFn : ℚ → ℚ) (q : List ℚ) (cands : List VCand) (k : ℕ)
    (es : List VEntry)
    (hk1 : 1 ≤ k) (hk2 : k ≤ 100) (hc : cands ≠ [])
    (hes : cands.mapM (candidateEntry sqrtFn q) = .ok es) :
    searchVector sqrtFn (.ok q) cands k = .ok (sortByScoreDesc (scanTopK k es)) ∧
    (sortByScoreDesc (scanTopK k es)).length = min k es.length ∧
    (∀ r ∈ sortByScoreDesc (scanTopK k es), r ∈ es) ∧
    (∀ c ∈ es, c ∈ sortByScoreDesc (scanTopK k es) ∨
       ∀ r ∈ sortByScoreDesc (scanTopK k es), c.score ≤ r.score) ∧
    List.Pairwise (fun a b => b.score ≤ a.score) (sortByScoreDesc (scanTopK k es)) ∧
    (∀ e ∈ es, e.score = normalizeSim e.rawScore) ∧
    (∀ e ∈ es, -1 ≤ e.rawScore → e.rawScore ≤ 1 →
       e.score = (e.rawScore + 1) / 2) ∧
    (∀ (top : List VEntry) (e : VEntry), top.length < k →
       vstep k top e = top ++ [e]) ∧
    (∀ (t : VEntry) (ts : List VEntry) (e : VEntry), (t :: ts).length = k →
       (argminTop (t :: ts)).2.score < e.score →
       vstep k (t :: ts) e = (t :: ts).set (argminTop (t :: ts)).1 e) ∧
    (∀ (t : VEntry) (ts : List VEntry) (e : VEntry), (t :: ts).length = k →
       ¬ (argminTop (t :: ts)).2.score < e.score →
       vstep k (t :: ts) e = t :: ts) := by
  have hcl : clampLimit k = k := by
    unfold clampLimit
    omega
  have hinv := scanTopK_inv k hk1 es
  obtain ⟨hlen, hsub, hdom, _⟩ := hinv
  have hperm := sortByDesc_perm (fun e : VEntry => e.score) (scanTopK k es)
  refine ⟨?_, ?_, ?_, ?_, ?_, ?_, ?_, ?_, ?_, ?_⟩
  · have hlen0 : ¬ cands.length = 0 := by
      simpa [List.length_eq_zero] using hc
    simp only [searchVector, hcl, if_neg hlen0, bind, Except.bind, hes]
  · show (sortByScoreDesc _).length = _
    unfold sortByScoreDesc
    rw [hperm.length_eq, hlen]
  · intro r hr
    exact hsub r (hperm.mem_iff.mp hr)
  · intro c hc'
    rcases hdom c hc' with hin | hle
    · exact Or.inl (hperm.mem_iff.mpr hin)
    · refine Or.inr ?_
      intro r hr
      exact hle r (hperm.mem_iff.mp hr)
  · exact sortByDesc_sorted _ _
  · intro e he
    obtain ⟨c, hcm, hce⟩ := mapM_ok_mem (candidateEntry sqrtFn q) cands es hes e he
    exact (candidateEntry_shape sqrtFn q c e hce).2
  · intro e he h1 h2
    obtain ⟨c, hcm, hce⟩ := mapM_ok_mem (candidateEntry sqrtFn q) cands es hes e he
    rw [(candidateEntry_shape sqrtFn q c e hce).2]
    exact normalizeSim_of_bounded e.rawScore h1 h2
  · intro top e hlt
    unfold vstep
    rw [if_pos hlt]
  · intro t ts e hlenk hrepl
    unfold vstep
    rw [if_neg (by omega)]
    simp only [if_pos hrepl]
  · intro t ts e hlenk hrepl
    unfold vstep
    rw [if_neg (by omega)]
    simp only [if_neg hrepl]

/-- Closed instance of the vector top-k theorem: three zero-similarity
candidates scanned with k = 2. -/
theorem c3_vector_topk_witness :
    searchVector (fun _ => 1) (.ok []) [⟨1, []⟩, ⟨2, []⟩, ⟨3, []⟩] 2 =
      .ok (sortByScoreDesc (scanTopK 2
        [⟨1, normalizeSim 0, 0⟩, ⟨2, normalizeSim 0, 0⟩, ⟨3, normalizeSim 0, 0⟩])) ∧
    (sortByScoreDesc (scanTopK 2
        [⟨1, normalizeSim 0, 0⟩, ⟨2, normalizeSim 0, 0⟩, ⟨3, normalizeSim 0, 0⟩])).length =
      min 2 ([(⟨1, normalizeSim 0, 0⟩ : VEntry), ⟨2, normalizeSim 0, 0⟩,
        ⟨3, normalizeSim 0, 0⟩].length) := by
  have h := c3_vector_topk (fun _ => 1) [] [⟨1, []⟩, ⟨2, []⟩, ⟨3, []⟩] 2
    [⟨1, normalizeSim 0, 0⟩, ⟨2, normalizeSim 0, 0⟩, ⟨3, normalizeSim 0, 0⟩]
    (by decide) (by decide) (by decide) (by rfl)
  exact ⟨h.1, h.2.1⟩

theorem removal_fold_id (files : List String) :
    ∀ (l : List FileMeta) (s : Store) (r : ℕ),
    (∀ f ∈ l, f.path ∈ files) →
    l.foldl (fun (acc : Store × ℕ) f =>
      if f.path ∈ files then acc else (deleteFileMetadata acc.1 f.id, acc.2 + 1))
      (s, r) = (s, r) := by
  intro l
  induction l with
  | nil => intro s r _; rfl
  | cons f t ih =>
    intro s r h
    rw [List.foldl_cons, if_pos (h f (List.mem_cons_self f t))]
    exact ih s r (fun x hx => h x (List.mem_cons_of_mem f hx))

theorem removal_fold_single (files : List String) (f₀ : FileMeta)
    (hnot : f₀.path ∉ files) (l₁ l₂ : List FileMeta) (s : Store)
    (hl : ∀ f ∈ l₁ ++ l₂, f.path ∈ files) :
    (l₁ ++ f₀ :: l₂).foldl (fun (acc : Store × ℕ) f =>
      if f.path ∈ files then acc else (deleteFileMetadata acc.1 f.id, acc.2 + 1))
      (s, 0) = (deleteFileMetadata s f₀.id, 1) := by
  rw [List.foldl_append]
  rw [removal_fold_id files l₁ s 0 (fun f hf => hl f (List.mem_append.mpr (Or.inl hf)))]
  rw [List.foldl_cons, if_neg hnot]
  exact removal_fold_id files l₂ _ 1 (fun f hf => hl f (List.mem_append.mpr (Or.inr hf)))

theorem indexFile_skip (hashFn : Str → String) (disk : Disk) (s : Store)
    (colId : ℕ) (path : String) (content : Str) (f : FileMeta)
    (hdisk : disk path = .textFile content)
    (hf : s.files.find? (fun x => x.collectionId = colId ∧ x.path = path) = some f)
    (hhash : f.fileHash = hashFn content) :
    indexFile hashFn disk s colId path false = (s, none) := by
  simp only [indexFile, hdisk, hf]
  rw [if_pos ⟨hhash, trivial⟩]

theorem index_fold_skip (hashFn : Str → String) (disk : Disk) (colId : ℕ) (s : Store) :
    ∀ (files : List String),
    (∀ p ∈ files, indexFile hashFn disk s colId p false = (s, none)) →
    ∀ (a b c : ℕ),
    files.foldl (fun (acc : Store × ℕ × ℕ × ℕ) p =>
      let r := indexFile hashFn disk acc.1 colId p false
      match r.2 with
      | some ch => (r.1, acc.2.1 + 1, acc.2.2.1, acc.2.2.2 + ch)
      | none => (r.1, acc.2.1, acc.2.2.1 + 1, acc.2.2.2)) (s, a, b, c) =
      (s, a, b + files.length, c) := by
  intro files
  induction files with
  | nil => intro _ a b c; simp
  | cons p t ih =>
    intro h a b c
    rw [List.foldl_cons]
    have hp := h p (List.mem_cons_self p t)
    simp only [hp]
    have := ih (fun x hx => h x (List.mem_cons_of_mem p hx)) a (b + 1) c
    rw [this]
    simp only [List.length_cons]
    have heq : b + 1 + t.length = b + (t.length + 1) := by omega
    rw [heq]

/-- C7: a second reindex over an unchanged corpus: every previously
indexed document of the collection is still matched (removed = 0), every
matched path has a stored record whose fingerprint equals the hash of
its current content, so with full = false every file is skipped, nothing
is indexed and the store is left exactly as it was. -/
theorem c7_reindex_unchanged_corpus (hashFn : Str → String) (disk : Disk)
    (s : Store) (colId : ℕ) (files : List String)
    (hpairs : (s.files.map (fun f => (f.collectionId, f.path))).Nodup)
    (hcover : ∀ f ∈ s.files, f.collectionId = colId → f.path ∈ files)
    (hfiles : ∀ p ∈ files, ∃ f ∈ s.files, f.collectionId = colId ∧ f.path = p ∧
       ∃ content, disk p = .textFile content ∧ f.fileHash = hashFn content) :
    reindexCollection hashFn disk s colId files false =
      (s, ⟨files.length, 0, files.length, 0, 0⟩) := by
  unfold reindexCollection
  have hremoval : (s.files.filter (fun f => f.collectionId = colId)).foldl
      (fun (acc : Store × ℕ) f =>
        if f.path ∈ files then acc else (deleteFileMetadata acc.1 f.id, acc.2 + 1))
      (s, 0) = (s, 0) := by
    apply removal_fold_id
    intro f hf
    rw [List.mem_filter, decide_eq_true_eq] at hf
    exact hcover f hf.1 hf.2
  have hskip : ∀ p ∈ files, indexFile hashFn disk s colId p false = (s, none) := by
    intro p hp
    obtain ⟨f, hfmem, hfcol, hfpath, content, hdisk, hhash⟩ := hfiles p hp
    have hfind : s.files.find? (fun x => x.collectionId = colId ∧ x.path = p) = some f := by
      apply find?_unique_key _ (fun x => (x.collectionId, x.path)) (colId, p)
        (fun y => by simp [Prod.ext_iff]) s.files f hfmem (by simp [hfcol, hfpath]) hpairs
    exact indexFile_skip hashFn disk s colId p content f hdisk hfind hhash
  have hpass := index_fold_skip hashFn disk colId s files hskip 0 0 0
  simp only [hremoval, hpass]
  simp

theorem delete_noTrace (f₀ : FileMeta) (dead : List ℕ) (t : Store) (fid : ℕ)
    (h : noTrace f₀ dead t) : noTrace f₀ dead (deleteFileMetadata t fid) := by
  obtain ⟨h1, h2, h3, h4⟩ := h
  refine ⟨?_, ?_, ?_, h4⟩
  · intro f hf
    exact h1 f (List.mem_filter.mp hf).1
  · intro c hc
    exact h2 c (List.mem_filter.mp hc).1
  · intro e he
    exact h3 e (List.mem_filter.mp he).1

theorem insertFresh_noTrace (hashFn : Str → String) (f₀ : FileMeta) (dead : List ℕ)
    (t : Store) (colId : ℕ) (path : String) (content : Str)
    (h : noTrace f₀ dead t) :
    noTrace f₀ dead (insertFreshDocument hashFn t colId path content).1 := by
  obtain ⟨h1, h2, h3, h4⟩ := h
  unfold insertFreshDocument
  have hmain : ∀ (cl : List FileChunk) (st : Store × ℕ),
      noTrace f₀ dead st.1 → t.nextFileId ≠ f₀.id →
      noTrace f₀ dead (cl.foldl
        (fun (acc : Store × ℕ) ch =>
          ({ acc.1 with
             chunks := acc.1.chunks ++
               [⟨acc.1.nextChunkId, t.nextFileId, ch.chunkIndex, ch.text, ch.startLine,
                 ch.endLine, ch.tokenCount⟩],
             nextChunkId := acc.1.nextChunkId + 1 }, acc.2 + 1)) st).1 := by
    intro cl
    induction cl with
    | nil => intro st hst _; exact hst
    | cons ch cl' ih =>
      intro st hst hfid
      rw [List.foldl_cons]
      apply ih _ _ hfid
      obtain ⟨g1, g2, g3, g4⟩ := hst
      refine ⟨g1, ?_, g3, g4⟩
      intro c hc
      rcases List.mem_append.mp hc with hc | hc
      · exact g2 c hc
      · rw [List.mem_singleton] at hc
        subst hc
        exact hfid
  apply hmain
  · refine ⟨?_, h2, h3, by simp; omega⟩
    intro f hf
    rcases List.mem_append.mp hf with hf | hf
    · exact h1 f hf
    · rw [List.mem_singleton] at hf
      subst hf
      simp
      omega
  · omega

theorem indexFile_noTrace (hashFn : Str → String) (disk : Disk) (f₀ : FileMeta)
    (dead : List ℕ) (t : Store) (colId : ℕ) (path : String) (force : Bool)
    (h : noTrace f₀ dead t) :
    noTrace f₀ dead (indexFile hashFn disk t colId path force).1 := by
  unfold indexFile
  cases hd : disk path with
  | absent => exact h
  | unreadable => exact h
  | binaryFile =>
    simp only
    cases hf : t.files.find? (fun x => x.collectionId = colId ∧ x.path = path) with
    | none => exact h
    | some f => exact delete_noTrace f₀ dead t f.id h
  | textFile content =>
    simp only
    cases hf : t.files.find? (fun x => x.collectionId = colId ∧ x.path = path) with
    | none =>
      simp only
      exact insertFresh_noTrace hashFn f₀ dead t colId path content h
    | some f =>
      simp only
      split
      · exact h
      · exact insertFresh_noTrace hashFn f₀ dead _ colId path content
          (delete_noTrace f₀ dead t f.id h)

theorem pass_fold_noTrace (hashFn : Str → String) (disk : Disk) (f₀ : FileMeta)
    (dead : List ℕ) (colId : ℕ) (full : Bool) :
    ∀ (files : List String) (acc : Store × ℕ × ℕ × ℕ), noTrace f₀ dead acc.1 →
    noTrace f₀ dead ((files.foldl (fun (acc : Store × ℕ × ℕ × ℕ) p =>
      let r := indexFile hashFn disk acc.1 colId p full
      match r.2 with
      | some ch => (r.1, acc.2.1 + 1, acc.2.2.1, acc.2.2.2 + ch)
      | none => (r.1, acc.2.1, acc.2.2.1 + 1, acc.2.2.2)) acc)).1 := by
  intro files
  induction files with
  | nil => intro acc h; exact h
  | cons p t ih =>
    intro acc h
    rw [List.foldl_cons]
    have hstep := indexFile_noTrace hashFn disk f₀ dead acc.1 colId p full h
    cases hr : (indexFile hashFn disk acc.1 colId p full).2 with
    | some ch =>
      apply ih
      simp only [hr]
      exact hstep
    | none =>
      apply ih
      simp only [hr]
      exact hstep

/-- C1: when a previously indexed document's path is no longer among the
matched files (and it is the only such document), reindex counts
removed = 1, its file row is gone, every chunk owned by it is gone, and
every embedding of one of its former chunks is gone (the cascade), and
the indexing pass that follows cannot resurrect any of them, whatever
the disk now holds. -/
theorem c1_removed_document_cascades (hashFn : Str → String) (disk : Disk)
    (s : Store) (colId : ℕ) (files : List String) (full : Bool) (f₀ : FileMeta)
    (hwf : s.wf)
    (hmem : f₀ ∈ s.files)
    (hcol : f₀.collectionId = colId)
    (hgone : f₀.path ∉ files)
    (huniq : ∀ f ∈ s.files, f.collectionId = colId → f.path ∉ files → f = f₀) :
    (reindexCollection hashFn disk s colId files full).2.removed = 1 ∧
    (∀ f ∈ (reindexCollection hashFn disk s colId files full).1.files, f.id ≠ f₀.id) ∧
    (∀ c ∈ (reindexCollection hashFn disk s colId files full).1.chunks,
       c.fileMetadataId ≠ f₀.id) ∧
    (∀ e ∈ (reindexCollection hashFn disk s colId files full).1.embeddings,
       e.chunkId ∉ ownedChunkIds s f₀.id) := by
  have hf0filter : f₀ ∈ s.files.filter (fun f => f.collectionId = colId) :=
    List.mem_filter.mpr ⟨hmem, by simp [hcol]⟩
  obtain ⟨l₁, l₂, heq⟩ := List.mem_iff_append.mp hf0filter
  have hnodup : (s.files.filter (fun f => f.collectionId = colId)).Nodup :=
    (hwf.1.of_map).filter _
  have hf0notml : f₀ ∉ l₁ ++ l₂ := by
    rw [heq] at hnodup
    rw [List.nodup_middle] at hnodup
    exact (List.nodup_cons.mp hnodup).1
  have hl : ∀ f ∈ l₁ ++ l₂, f.path ∈ files := by
    intro f hf
    have hffilter : f ∈ s.files.filter (fun x => x.collectionId = colId) := by
      rw [heq]
      rcases List.mem_append.mp hf with hf | hf
      · exact List.mem_append.mpr (Or.inl hf)
      · exact List.mem_append.mpr (Or.inr (List.mem_cons_of_mem f₀ hf))
    rw [List.mem_filter, decide_eq_true_eq] at hffilter
    by_contra habs
    have := huniq f hffilter.1 hffilter.2 habs
    subst this
    exact hf0notml hf
  have hremoval : (s.files.filter (fun f => f.collectionId = colId)).foldl
      (fun (acc : Store × ℕ) f =>
        if f.path ∈ files then acc else (deleteFileMetadata acc.1 f.id, acc.2 + 1))
      (s, 0) = (deleteFileMetadata s f₀.id, 1) := by
    rw [heq]
    exact removal_fold_single files f₀ hgone l₁ l₂ s hl
  have hstart : noTrace f₀ (ownedChunkIds s f₀.id) (deleteFileMetadata s f₀.id) := by
    refine ⟨?_, ?_, ?_, ?_⟩
    · intro f hf
      have := (List.mem_filter.mp hf).2
      simpa using this
    · intro c hc
      have := (List.mem_filter.mp hc).2
      simpa using this
    · intro e he
      have := (List.mem_filter.mp he).2
      simpa using this
    · exact hwf.2.2.1 f₀ hmem
  have hfinal := pass_fold_noTrace hashFn disk f₀ (ownedChunkIds s f₀.id) colId full
    files ((deleteFileMetadata s f₀.id), 0, 0, 0) hstart
  unfold reindexCollection
  simp only [hremoval]
  exact ⟨trivial, hfinal.1, hfinal.2.1, hfinal.2.2.1⟩

/-- Closed instance of the cascade theorem: a store holding one
document with one chunk and its embedding, reindexed after the file
disappeared from disk. -/
theorem c1_removed_document_cascades_witness :
    (reindexCollection (fun _ => "h") (fun _ => .absent)
       ⟨[⟨0, 0, "a.md", "h"⟩], [⟨5, 0, 0, [], 1, 1, 0⟩], [⟨5, [1, 2]⟩], 1, 6⟩
       0 [] false).2.removed = 1 :=
  (c1_removed_document_cascades (fun _ => "h") (fun _ => .absent)
    ⟨[⟨0, 0, "a.md", "h"⟩], [⟨5, 0, 0, [], 1, 1, 0⟩], [⟨5, [1, 2]⟩], 1, 6⟩
    0 [] false ⟨0, 0, "a.md", "h"⟩
    (by decide) (by decide) (by decide) (by decide) (by decide)).1

/-- Closed instance of the unchanged-corpus theorem: one indexed file
whose stored hash matches the current content hash is skipped and the
store is untouched. -/
theorem c7_reindex_unchanged_corpus_witness :
    reindexCollection (fun _ => "h")
      (fun p => if p = "a.md" then .textFile ['x'] else .absent)
      ⟨[⟨0, 0, "a.md", "h"⟩], [⟨5, 0, 0, [], 1, 1, 0⟩], [], 1, 6⟩
      0 ["a.md"] false =
      (⟨[⟨0, 0, "a.md", "h"⟩], [⟨5, 0, 0, [], 1, 1, 0⟩], [], 1, 6⟩,
       ⟨1, 0, 1, 0, 0⟩) :=
  c7_reindex_unchanged_corpus (fun _ => "h")
    (fun p => if p = "a.md" then .textFile ['x'] else .absent)
    ⟨[⟨0, 0, "a.md", "h"⟩], [⟨5, 0, 0, [], 1, 1, 0⟩], [], 1, 6⟩
    0 ["a.md"] (by decide) (by decide)
    (by
      intro p hp
      rw [List.mem_singleton] at hp
      subst hp
      exact ⟨⟨0, 0, "a.md", "h"⟩, by decide, rfl, rfl, ['x'], by decide, rfl⟩)

theorem splitOnChar_ne_nil (sep : Char) : ∀ (l : Str), splitOnChar sep l ≠ [] := by
  intro l
  induction l with
  | nil => simp [splitOnChar]
  | cons c rest ih =>
    simp only [splitOnChar]
    split
    · simp
    · cases h : splitOnChar sep rest with
      | nil => simp
      | cons hd tl => simp

theorem trimStr_eq_nil_iff (l : Str) : trimStr l = [] ↔ ∀ c ∈ l, isWsChar c = true := by
  unfold trimStr
  rw [List.reverse_eq_nil_iff, List.dropWhile_eq_nil_iff]
  constructor
  · intro h c hc
    have hsplit : c ∈ l.takeWhile isWsChar ∨ c ∈ l.dropWhile isWsChar := by
      rw [← List.mem_append, List.takeWhile_append_dropWhile]
      exact hc
    rcases hsplit with hc' | hc'
    · exact List.mem_takeWhile_imp hc'
    · exact h c (List.mem_reverse.mpr hc')
  · intro h c hc
    have : c ∈ l.dropWhile isWsChar := List.mem_reverse.mp hc
    exact h c ((List.dropWhile_sublist isWsChar).mem this)

theorem joinLines_all_ws :
    ∀ (cc : List Str), (∀ c ∈ joinLines cc, isWsChar c = true) ↔
      (∀ l ∈ cc, ∀ c ∈ l, isWsChar c = true) := by
  intro cc
  induction cc with
  | nil => simp [joinLines]
  | cons l rest ih =>
    cases rest with
    | nil => simp [joinLines]
    | cons l2 r2 =>
      show (∀ c ∈ l ++ Char.ofNat 10 :: joinLines (l2 :: r2), isWsChar c = true) ↔ _
      constructor
      · intro h x hx
        rcases List.mem_cons.mp hx with rfl | hx
        · intro c hc
          exact h c (List.mem_append.mpr (Or.inl hc))
        · intro c hc
          exact (ih.mp (fun d hd =>
            h d (List.mem_append.mpr (Or.inr (List.mem_cons_of_mem _ hd))))) x hx c hc
      · intro h c hc
        rcases List.mem_append.mp hc with hc | hc
        · exact h l (List.mem_cons_self l _) c hc
        · rcases List.mem_cons.mp hc with rfl | hc
          · rfl
          · exact (ih.mpr (fun y hy => h y (List.mem_cons_of_mem l hy))) c hc

theorem trimStr_join_ne (cc : List Str) (h : ∃ l ∈ cc, trimStr l ≠ []) :
    trimStr (joinLines cc) ≠ [] := by
  obtain ⟨l, hl, hlt⟩ := h
  intro habs
  apply hlt
  rw [trimStr_eq_nil_iff] at habs ⊢
  exact ((joinLines_all_ws cc).mp habs) l hl

theorem sumTokens_foldl (cc : List Str) :
    ∀ (a : ℕ), cc.foldl (fun acc l => acc + estimateTokens l) a = a + sumTokens cc := by
  induction cc with
  | nil => intro a; simp [sumTokens]
  | cons l rest ih =>
    intro a
    show rest.foldl _ (a + estimateTokens l) = _
    rw [ih (a + estimateTokens l)]
    have h0 : sumTokens (l :: rest) = 0 + estimateTokens l + sumTokens rest := by
      show rest.foldl _ (0 + estimateTokens l) = _
      rw [ih (0 + estimateTokens l)]
    rw [h0]
    omega

theorem sumTokens_snoc (cc : List Str) (l : Str) :
    sumTokens (cc ++ [l]) = sumTokens cc + estimateTokens l := by
  show (cc ++ [l]).foldl _ 0 = _
  rw [List.foldl_append]
  show [l].foldl _ (sumTokens cc) = _
  simp [List.foldl_cons, List.foldl_nil]

theorem sumTokens_pos_line (cc : List Str) (h : 1 ≤ sumTokens cc) :
    ∃ l ∈ cc, l ≠ [] := by
  induction cc with
  | nil =>
    exfalso
    simp [sumTokens] at h
  | cons l rest ih =>
    have hsplit : sumTokens (l :: rest) = estimateTokens l + sumTokens rest := by
      show rest.foldl _ (0 + estimateTokens l) = _
      rw [sumTokens_foldl rest (0 + estimateTokens l)]
      omega
    by_cases hl : l = []
    · subst hl
      have : estimateTokens [] = 0 := rfl
      rw [hsplit, this] at h
      obtain ⟨x, hx, hxne⟩ := ih (by omega)
      exact ⟨x, List.mem_cons_of_mem _ hx, hxne⟩
    · exact ⟨l, List.mem_cons_self l rest, hl⟩

theorem flushChunk_emit (st : ChunkerState) (next : Option ℕ)
    (hcc : st.cc ≠ [])
    (htext : trimStr (joinLines st.cc) ≠ [])
    (hcsl : 1 ≤ st.csl)
    (hok : chunksOk st.chunks st.csl)
    (hnext : next.getD (st.csl + st.cc.length) = st.csl + st.cc.length) :
    flushChunk st next = ⟨st.chunks ++ [⟨trimStr (joinLines st.cc), st.csl,
        st.csl + st.cc.length - 1, estimateTokens (trimStr (joinLines st.cc))⟩],
      [], 0, st.csl + st.cc.length⟩ ∧
    chunksOk (st.chunks ++ [⟨trimStr (joinLines st.cc), st.csl,
        st.csl + st.cc.length - 1, estimateTokens (trimStr (joinLines st.cc))⟩])
      (st.csl + st.cc.length) := by
  have hlen : 1 ≤ st.cc.length := List.length_pos.mpr hcc
  constructor
  · unfold flushChunk
    rw [if_neg hcc, if_neg htext]
    have harith : st.csl + st.cc.length - 1 + 1 = st.csl + st.cc.length := by omega
    simp only [harith, hnext]
  · obtain ⟨hk1, hk2, hk3, hk4, hk5⟩ := hok
    refine ⟨by simp, ?_, ?_, ?_, ?_⟩
    · intro c hc
      cases hch : st.chunks with
      | nil =>
        rw [hch] at hc
        simp at hc
        rw [← hc]
        exact hk1 hch
      | cons a t =>
        rw [hch] at hc
        simp at hc
        rw [← hc]
        exact hk2 a (by rw [hch]; rfl)
    · intro c hc
      rcases List.mem_append.mp hc with hc | hc
      · exact hk3 c hc
      · rw [List.mem_singleton] at hc
        subst hc
        simp
        omega
    · rw [List.chain'_append]
      refine ⟨hk4, List.chain'_singleton _, ?_⟩
      intro x hx y hy
      simp at hy
      rw [← hy]
      show (⟨_, st.csl, _, _⟩ : Chunk).startLine = x.endLine + 1
      exact (hk5 x hx).symm
    · intro c hc
      rw [List.getLast?_concat] at hc
      have := Option.some.inj hc
      rw [← this]
      simp
      omega

theorem chunk_step_inv (line : Str) (rest' : List Str) (i : ℕ) (st : ChunkerState)
    (hline2 : line ≠ [] → trimStr line ≠ [])
    (hinv1 : st.csl + st.cc.length = i + 1)
    (hinv2 : st.tokens = sumTokens st.cc)
    (hinv3 : 1 ≤ st.csl)
    (hinv4 : chunksOk st.chunks st.csl)
    (hinv5 : ∀ l ∈ st.cc, l ≠ [] → trimStr l ≠ []) :
    (chunkStep line rest' i st).csl + (chunkStep line rest' i st).cc.length = (i + 1) + 1 ∧
    (chunkStep line rest' i st).tokens = sumTokens (chunkStep line rest' i st).cc ∧
    1 ≤ (chunkStep line rest' i st).csl ∧
    chunksOk (chunkStep line rest' i st).chunks (chunkStep line rest' i st).csl ∧
    (∀ l ∈ (chunkStep line rest' i st).cc, l ≠ [] → trimStr l ≠ []) ∧
    ((chunkStep line rest' i st).cc ≠ [] →
      (chunkStep line rest' i st).cc.getLast? = some line) := by
  unfold chunkStep
  -- the state st1 after the conditional heading flush
  have hst1 : ∀ st1 : ChunkerState,
      st1 = (if isHeading line ∧ st.cc ≠ [] ∧ minChunkSize ≤ st.tokens
             then flushChunk st (some (i + 1)) else st) →
      st1.csl + st1.cc.length = i + 1 ∧
      st1.tokens = sumTokens st1.cc ∧
      1 ≤ st1.csl ∧
      chunksOk st1.chunks st1.csl ∧
      (∀ l ∈ st1.cc, l ≠ [] → trimStr l ≠ []) := by
    intro st1 hdef
    by_cases hC1 : isHeading line = true ∧ st.cc ≠ [] ∧ minChunkSize ≤ st.tokens
    · rw [if_pos hC1] at hdef
      have htok : 1 ≤ sumTokens st.cc := by
        have := hC1.2.2
        rw [hinv2] at this
        unfold minChunkSize at this
        omega
      have htext : trimStr (joinLines st.cc) ≠ [] := by
        apply trimStr_join_ne
        obtain ⟨l, hl, hlne⟩ := sumTokens_pos_line st.cc htok
        exact ⟨l, hl, hinv5 l hl hlne⟩
      have hemit := flushChunk_emit st (some (i + 1)) hC1.2.1 htext hinv3 hinv4
        (by simp [Option.getD]; omega)
      rw [hemit.1] at hdef
      subst hdef
      refine ⟨by simp; omega, by simp [sumTokens], by simp; omega, ?_, by simp⟩
      exact hemit.2
    · rw [if_neg hC1] at hdef
      subst hdef
      exact ⟨hinv1, hinv2, hinv3, hinv4, hinv5⟩
  obtain ⟨h1, h2, h3, h4, h5⟩ := hst1 _ rfl
  -- the state st2 after pushing the line
  set st1 := (if isHeading line ∧ st.cc ≠ [] ∧ minChunkSize ≤ st.tokens
              then flushChunk st (some (i + 1)) else st) with hst1def
  have p1 : (pushLine st1 line).csl + (pushLine st1 line).cc.length = i + 2 := by
    simp [pushLine]
    omega
  have p2 : (pushLine st1 line).tokens = sumTokens (pushLine st1 line).cc := by
    simp [pushLine, sumTokens_snoc, h2]
  have p3 : 1 ≤ (pushLine st1 line).csl := h3
  have p4 : chunksOk (pushLine st1 line).chunks (pushLine st1 line).csl := h4
  have p5 : ∀ l ∈ (pushLine st1 line).cc, l ≠ [] → trimStr l ≠ [] := by
    intro l hl
    simp only [pushLine] at hl
    rcases List.mem_append.mp hl with hl | hl
    · exact h5 l hl
    · rw [List.mem_singleton] at hl
      subst hl
      exact hline2
  have pcc : (pushLine st1 line).cc ≠ [] := by
    simp [pushLine]
  have pccl : (pushLine st1 line).cc.getLast? = some line := by
    simp only [pushLine]
    exact List.getLast?_concat _
  by_cases hC2 : targetChunkSize ≤ (pushLine st1 line).tokens ∧
      (isBlankLine line = true ∨ isHorizontalRule line = true ∨ rest' = [])
  · rw [if_pos hC2]
    have htok : 1 ≤ sumTokens (pushLine st1 line).cc := by
      have := hC2.1
      rw [p2] at this
      unfold targetChunkSize at this
      omega
    have htext : trimStr (joinLines (pushLine st1 line).cc) ≠ [] := by
      apply trimStr_join_ne
      obtain ⟨l, hl, hlne⟩ := sumTokens_pos_line _ htok
      exact ⟨l, hl, p5 l hl hlne⟩
    have hemit := flushChunk_emit (pushLine st1 line) (some (i + 2)) pcc htext p3 p4
      (by simp [Option.getD]; omega)
    rw [hemit.1]
    refine ⟨by simp; omega, by simp [sumTokens], by simp; omega, ?_, by simp, by simp⟩
    exact hemit.2
  · rw [if_neg hC2]
    exact ⟨p1, p2, p3, p4, p5, fun _ => pccl⟩

theorem chunkLoop_inv :
    ∀ (fuel : ℕ) (rest : List Str) (i : ℕ) (st : ChunkerState),
    rest.length ≤ fuel →
    (∀ l ∈ rest, isCodeFence l = false) →
    (∀ l ∈ rest, l ≠ [] → trimStr l ≠ []) →
    st.csl + st.cc.length = i + 1 →
    st.tokens = sumTokens st.cc →
    1 ≤ st.csl →
    chunksOk st.chunks st.csl →
    (∀ l ∈ st.cc, l ≠ [] → trimStr l ≠ []) →
    (chunkLoop fuel rest i st).csl + (chunkLoop fuel rest i st).cc.length
      = i + rest.length + 1 ∧
    (chunkLoop fuel rest i st).tokens = sumTokens (chunkLoop fuel rest i st).cc ∧
    1 ≤ (chunkLoop fuel rest i st).csl ∧
    chunksOk (chunkLoop fuel rest i st).chunks (chunkLoop fuel rest i st).csl ∧
    (∀ l ∈ (chunkLoop fuel rest i st).cc, l ≠ [] → trimStr l ≠ []) ∧
    ((chunkLoop fuel rest i st).cc ≠ [] → rest ≠ [] →
      (chunkLoop fuel rest i st).cc.getLast? = rest.getLast?) := by
  intro fuel
  induction fuel with
  | zero =>
    intro rest i st hlen _ _ hi1 hi2 hi3 hi4 hi5
    have : rest = [] := by
      rw [← List.length_eq_zero]
      omega
    subst this
    exact ⟨hi1, hi2, hi3, hi4, hi5, fun _ h => absurd rfl h⟩
  | succ fuel ih =>
    intro rest i st hlen H1 H2 hi1 hi2 hi3 hi4 hi5
    cases rest with
    | nil =>
      exact ⟨hi1, hi2, hi3, hi4, hi5, fun _ h => absurd rfl h⟩
    | cons line rest' =>
      have hfence : isCodeFence line = false := H1 line (List.mem_cons_self _ _)
      have hloop : chunkLoop (fuel + 1) (line :: rest') i st =
          chunkLoop fuel rest' (i + 1) (chunkStep line rest' i st) := by
        rw [chunkLoop]
        rw [if_neg (by rw [hfence]; exact Bool.false_ne_true)]
      rw [hloop]
      have hs := chunk_step_inv line rest' i st (H2 line (List.mem_cons_self _ _))
        hi1 hi2 hi3 hi4 hi5
      have hrec := ih rest' (i + 1) (chunkStep line rest' i st)
        (by simp at hlen; omega)
        (fun l hl => H1 l (List.mem_cons_of_mem _ hl))
        (fun l hl => H2 l (List.mem_cons_of_mem _ hl))
        hs.1 hs.2.1 hs.2.2.1 hs.2.2.2.1 hs.2.2.2.2.1
      refine ⟨by have := hrec.1; simp only [List.length_cons]; omega,
        hrec.2.1, hrec.2.2.1, hrec.2.2.2.1, hrec.2.2.2.2.1, ?_⟩
      intro hcc' _
      cases rest' with
      | nil =>
        have hid : chunkLoop fuel [] (i + 1) (chunkStep line [] i st) =
            chunkStep line [] i st := by
          cases fuel <;> rfl
        rw [hid] at hcc' ⊢
        rw [hs.2.2.2.2.2 hcc']
        rfl
      | cons l2 r2 =>
        rw [hrec.2.2.2.2.2 hcc' (by simp)]
        rw [List.getLast?_cons_cons]

theorem consecB_of_chain :
    ∀ (cs : List Chunk), (∀ c ∈ cs, c.startLine ≤ c.endLine) →
    List.Chain' (fun a b => b.startLine = a.endLine + 1) cs → consecB cs = true := by
  intro cs
  induction cs with
  | nil => intro _ _; rfl
  | cons c rest ih =>
    intro hse hchain
    cases rest with
    | nil =>
      simp [consecB]
      exact hse c (List.mem_cons_self _ _)
    | cons c2 r2 =>
      rw [List.chain'_cons] at hchain
      show (decide _ && decide _ && consecB (c2 :: r2)) = true
      rw [Bool.and_eq_true, Bool.and_eq_true]
      refine ⟨⟨?_, ?_⟩, ih (fun x hx => hse x (List.mem_cons_of_mem _ hx)) hchain.2⟩
      · simp only [decide_eq_true_eq]
        exact hse c (List.mem_cons_self _ _)
      · simp only [decide_eq_true_eq]
        exact hchain.1

theorem chunksOk_coversB (cs : List Chunk) (n : ℕ) (hne : cs ≠ [])
    (h : chunksOk cs (n + 1)) : coversLinesB cs n = true := by
  obtain ⟨_, hhead, hse, hchain, hlast⟩ := h
  cases cs with
  | nil => exact absurd rfl hne
  | cons c rest =>
    show (decide _ && consecB (c :: rest) &&
      (match (c :: rest).getLast? with
       | some cl => decide (cl.endLine = n)
       | none => false)) = true
    rw [Bool.and_eq_true, Bool.and_eq_true]
    refine ⟨⟨?_, consecB_of_chain _ hse hchain⟩, ?_⟩
    · simp only [decide_eq_true_eq]
      exact hhead c rfl
    · cases hgl : (c :: rest).getLast? with
      | none =>
        exfalso
        rw [List.getLast?_eq_none_iff] at hgl
        exact List.cons_ne_nil c rest hgl
      | some cl =>
        simp only [decide_eq_true_eq]
        have := hlast cl hgl
        omega

theorem chunkFile_indices (filePath : String) (content : Str) :
    (chunkFile filePath content).map (fun c => c.chunkIndex) =
      List.range (chunkMarkdown content).length := by
  unfold chunkFile
  rw [List.map_map]
  have hcomp : ((fun c : FileChunk => c.chunkIndex) ∘ fun p : ℕ × Chunk =>
      (⟨p.2.text, p.2.startLine, p.2.endLine, p.2.tokenCount, filePath, p.1⟩ : FileChunk)) =
      Prod.fst := rfl
  rw [hcomp, List.enum_map_fst]

/-- C5 (counterexample): the one-line empty document has no heading or
fence anomalies, yet chunkMarkdown produces no chunks at all, so the
chunk line ranges do not cover lines 1..1: the claim fails as stated. -/
theorem c5_partition_counterexample :
    (splitLines ([] : Str)).all (fun l => !isCodeFence l) = true ∧
    (splitLines ([] : Str)).all (fun l => !isHeading l) = true ∧
    chunkMarkdown ([] : Str) = [] ∧
    numLines ([] : Str) = 1 ∧
    coversLinesB (chunkMarkdown ([] : Str)) (numLines ([] : Str)) = false := by
  refine ⟨by decide, by decide, by decide, by decide, by decide⟩

/-- C5 (amended): for a document with no code-fence lines, no non-empty
whitespace-only lines, and a last line that is not whitespace-only, the
chunk line ranges taken in order cover lines 1..N with no gaps and no
overlaps, and chunk sequence indices are assigned consecutively from 0.
The original claim fails on blank-line pathologies (see the
counterexample): a trailing run of whitespace-only lines is discarded by
the empty-text guard of flushChunk without advancing coverage. -/
theorem c5_partition_amended (content : Str) (filePath : String)
    (H1 : ∀ l ∈ splitLines content, isCodeFence l = false)
    (H2 : ∀ l ∈ splitLines content, l ≠ [] → trimStr l ≠ [])
    (H3 : ∀ l, (splitLines content).getLast? = some l → trimStr l ≠ []) :
    coversLinesB (chunkMarkdown content) (numLines content) = true ∧
    (chunkFile filePath content).map (fun c => c.chunkIndex) =
      List.range (chunkMarkdown content).length := by
  refine ⟨?_, chunkFile_indices filePath content⟩
  have hln : splitLines content ≠ [] := splitOnChar_ne_nil _ _
  have hN : 1 ≤ (splitLines content).length := List.length_pos.mpr hln
  have hbase : chunksOk ([] : List Chunk) 1 := by
    refine ⟨fun _ => rfl, ?_, ?_, List.chain'_nil, ?_⟩
    · intro c h
      cases h
    · intro c h
      cases h
    · intro c h
      cases h
  have hinv := chunkLoop_inv (splitLines content).length (splitLines content) 0
    ⟨[], [], 0, 1⟩ (le_refl _) H1 H2 (by simp) (by simp [sumTokens]) (by simp)
    hbase (by simp)
  obtain ⟨hF1, hF2, hF3, hF4, hF5, hF6⟩ := hinv
  set stF := chunkLoop (splitLines content).length (splitLines content) 0
    ⟨[], [], 0, 1⟩ with hstF
  have hmark : chunkMarkdown content = (flushChunk stF none).chunks := rfl
  have hNval : numLines content = (splitLines content).length := rfl
  rw [hmark, hNval]
  by_cases hcc : stF.cc = []
  · have hflush : flushChunk stF none = stF := by
      unfold flushChunk
      rw [if_pos hcc]
    rw [hflush]
    have hcsl : stF.csl = (splitLines content).length + 1 := by
      rw [hcc] at hF1
      simp at hF1
      omega
    have hne : stF.chunks ≠ [] := by
      intro habs
      have := hF4.1 habs
      omega
    apply chunksOk_coversB _ _ hne
    rw [← hcsl]
    exact hF4
  · obtain ⟨lastL, hlastL⟩ : ∃ l, (splitLines content).getLast? = some l := by
      cases hgl : (splitLines content).getLast? with
      | none =>
        exfalso
        rw [List.getLast?_eq_none_iff] at hgl
        exact hln hgl
      | some l => exact ⟨l, rfl⟩
    have hcclast : stF.cc.getLast? = some lastL := by
      rw [hF6 hcc hln]
      exact hlastL
    have hmemcc : lastL ∈ stF.cc := List.mem_of_mem_getLast? hcclast
    have htext : trimStr (joinLines stF.cc) ≠ [] :=
      trimStr_join_ne stF.cc ⟨lastL, hmemcc, H3 lastL hlastL⟩
    have hemit := flushChunk_emit stF none hcc htext hF3 hF4 rfl
    rw [hemit.1]
    have hsum : stF.csl + stF.cc.length = (splitLines content).length + 1 := by
      omega
    apply chunksOk_coversB
    · simp
    · rw [← hsum]
      exact hemit.2

/-- Closed instance of the amended partition theorem on a two-line
document. -/
theorem c5_partition_amended_witness :
    coversLinesB (chunkMarkdown ("hi\nyou".toList)) (numLines ("hi\nyou".toList)) = true ∧
    (chunkFile "d.md" ("hi\nyou".toList)).map (fun c => c.chunkIndex) =
      List.range (chunkMarkdown ("hi\nyou".toList)).length :=
  c5_partition_amended ("hi\nyou".toList) "d.md" (by decide) (by decide) (by decide)
